import Mathlib

/-!
Verification development for the hamarc archiver: a shallow embedding of the
Hamming codec (part_001) and of the archive engine (part_003), with theorems
settling the specified properties.

Bytes are modelled as natural numbers below 256, streams as lists of bytes.
Within each byte, bits are consumed and produced least-significant-bit first,
exactly as the C++ bit reader and writer do.
-/

namespace hamarc

/-! ### Bit and byte packing (the BitStream layer of the codec) -/

/-- Bits of one byte, least significant first: bit i is `(b >> i) & 1`. -/
def byteToBits (b : Nat) : List Bool :=
  (List.range 8).map (fun i => b.testBit i)

/-- Unpack a byte stream into its bit sequence, LSB first within each byte. -/
def bytesToBits (bs : List Nat) : List Bool :=
  (bs.map byteToBits).flatten

/-- Value of a bit list, head = bit 0 (the accumulation order of the C++
encoder loops, which or `1 << index` for each incoming set bit). -/
def bitsToNat : List Bool → Nat
  | [] => 0
  | b :: rest => (if b then 1 else 0) + 2 * bitsToNat rest

/-- The low `w` bits of `v`, least significant first (the emission order of
the C++ writer loops, which take `(v >> index) & 1` for each index). -/
def natToBits (w v : Nat) : List Bool :=
  (List.range w).map (fun i => v.testBit i)

/-- Chunking worker, structurally recursive on fuel so that concrete
instances reduce; `toBlocks` supplies enough fuel for the whole list. -/
def toBlocksAux (k : Nat) : Nat → List Bool → List (List Bool)
  | 0, _ => []
  | fuel + 1, l =>
      if l = [] ∨ k = 0 then []
      else l.take k :: toBlocksAux k fuel (l.drop k)

/-- Split a bit list into consecutive chunks of `k` bits; the final chunk may
be shorter.  This is how the streaming loops group bits into data blocks
(`k = data_bits_`) and into output bytes (`k = 8`). -/
def toBlocks (k : Nat) (l : List Bool) : List (List Bool) :=
  toBlocksAux k l.length l

/-- Pack a bit list into bytes; a final partial byte is flushed with its upper
bits zero, as `FlushOutputByte` does. -/
def bitsToBytes (l : List Bool) : List Nat :=
  (toBlocks 8 l).map bitsToNat

/-! ### HammingCodec block encode / decode (part_001) -/

/-- `(bit_position & (bit_position - 1)) == 0`: the C++ test for a parity
(power-of-two) position. -/
def isParityPosition (p : Nat) : Bool :=
  p &&& (p - 1) == 0

/-- The 1-indexed positions `1..total_bits` that carry data bits, in order. -/
def nonParityPositions (total_bits : Nat) : List Nat :=
  (((List.range total_bits).map (· + 1)).filter (fun p => !isParityPosition p))

/-- The parity positions `1, 2, 4, ...` up to `total_bits`, in the order the
C++ `parity_position <<= 1` loop visits them. -/
def parityPositions (total_bits : Nat) : List Nat :=
  (((List.range total_bits).map (fun j => 2 ^ j)).filter (fun p => p ≤ total_bits))

/-- The positions `1..total_bits` covered by parity position `p`: those `q`
with `q & p != 0`. -/
def coverPositions (total_bits p : Nat) : List Nat :=
  (((List.range total_bits).map (· + 1)).filter (fun q => q &&& p != 0))

/-- XOR of the codeword bits at the positions covered by `p`: the inner loop
shared by `EncodeBlock` and `CalculateSyndrome`. -/
def computeParityBit (codeword total_bits p : Nat) : Bool :=
  (coverPositions total_bits p).foldl (fun acc q => xor acc (codeword.testBit (q - 1))) false

/-- Placement loop of `EncodeBlock`: walk the non-parity positions, copying
data bit `data_index` into codeword bit `position - 1`. -/
def placeLoop (data_value : Nat) : List Nat → Nat → Nat → Nat
  | [], _, codeword => codeword
  | p :: rest, data_index, codeword =>
      placeLoop data_value rest (data_index + 1)
        (if data_value.testBit data_index then codeword ||| 2 ^ (p - 1) else codeword)

/-- Extraction loop of `ExtractDataBits`: walk the non-parity positions,
copying codeword bit `position - 1` into data bit `data_index`. -/
def extractLoop (codeword : Nat) : List Nat → Nat → Nat → Nat
  | [], _, data_value => data_value
  | p :: rest, data_index, data_value =>
      extractLoop codeword rest (data_index + 1)
        (if codeword.testBit (p - 1) then data_value ||| 2 ^ data_index else data_value)

/-- `ExtractDataBits` of part_001. -/
def ExtractDataBits (codeword total_bits : Nat) : Nat :=
  extractLoop codeword (nonParityPositions total_bits) 0 0

/-- `CalculateSyndrome` of part_001. -/
def CalculateSyndrome (codeword total_bits : Nat) : Nat :=
  (parityPositions total_bits).foldl
    (fun syndrome p => if computeParityBit codeword total_bits p then syndrome ||| p else syndrome) 0

/-- `HammingCodec::EncodeBlock`: place the data bits at non-parity positions,
then fill each parity position from the (evolving) codeword. -/
def EncodeBlock (k r data_value : Nat) : Nat :=
  (parityPositions (k + r)).foldl
    (fun codeword p =>
      if computeParityBit codeword (k + r) p then codeword ||| 2 ^ (p - 1) else codeword)
    (placeLoop data_value (nonParityPositions (k + r)) 0 0)

/-- `HammingCodec::DecodeBlock`: syndrome, optional single-bit correction,
verification pass, then extraction. -/
def DecodeBlock (k r codeword : Nat) : Nat × Bool :=
  let n := k + r
  let syndrome := CalculateSyndrome codeword n
  let step : Nat × Bool :=
    if syndrome ≠ 0 then
      if syndrome ≤ n then (codeword ^^^ 2 ^ (syndrome - 1), false) else (codeword, true)
    else (codeword, false)
  let has_error := step.2 || (CalculateSyndrome step.1 n != 0)
  if has_error then (0, true) else (ExtractDataBits step.1 n, false)

/-! ### HammingCodec stream encode / decode (part_001) -/

/-- `HammingCodec::EncodeStream`: unpack the input bytes LSB first, group the
bits into `k`-bit data blocks (the final block zero-padded), encode each block
to a `k+r`-bit codeword, emit the codeword bits LSB first, flush. -/
def EncodeStream (k r : Nat) (input : List Nat) : List Nat :=
  bitsToBytes
    (((toBlocks k (bytesToBits input)).map
        (fun blk => natToBits (k + r) (EncodeBlock k r (bitsToNat blk)))).flatten)

/-- Per-codeword loop of `DecodeStream`: decode each codeword, fail on an
uncorrectable block, emit `data_bits_` bits per block trimmed so that exactly
`original_bits` bits come out in total. -/
def decodeCodewords (k r original_bits : Nat) : List Nat → Nat → Option (List Bool)
  | [], _ => some []
  | cw :: rest, bits_written =>
      match DecodeBlock k r cw with
      | (_, true) => none
      | (d, false) =>
          let bits_to_output :=
            if bits_written + k > original_bits then original_bits - bits_written else k
          match decodeCodewords k r original_bits rest (bits_written + bits_to_output) with
          | some tail => some (natToBits bits_to_output d ++ tail)
          | none => none

/-- `HammingCodec::DecodeStream` (the unused fourth C++ argument is dropped):
with `original_size = 0` succeed immediately; otherwise pull exactly
`codeword_count * (k+r)` bits from the encoded stream (failing if the stream
is too short), decode codeword by codeword, and flush the output writer.
Returns `none` where the C++ returns `false`. -/
def DecodeStream (k r : Nat) (encoded : List Nat) (original_size : Nat) : Option (List Nat) :=
  let original_bits := original_size * 8
  if original_bits = 0 then some []
  else
    let codeword_count := (original_bits + k - 1) / k
    let total_code_bits := codeword_count * (k + r)
    let stream_bits := bytesToBits encoded
    if stream_bits.length < total_code_bits then none
    else
      match decodeCodewords k r original_bits
          ((toBlocks (k + r) (stream_bits.take total_code_bits)).map bitsToNat) 0 with
      | some out_bits => some (bitsToBytes out_bits)
      | none => none

/-- `CalculateEncodedSize` of part_003 (it reads `k` and `r` from the codec). -/
def CalculateEncodedSize (k r original_size : Nat) : Nat :=
  let original_bits := original_size * 8
  let codeword_count := (original_bits + k - 1) / k
  let total_code_bits := codeword_count * (k + r)
  (total_code_bits + 7) / 8


/-! ### The archive engine (part_003)

The filesystem is modelled as an association list from paths to nodes
(regular files with byte contents, or directories); the first binding for a
path is the current one.  Streams never fail in the model, with one
exception: each mutating operation takes a `header_ok` flag that models
`out.good()` after `WriteArchiveHeader` on its output file, so that the
error paths of the C++ that follow a failed header write are reachable.
All other write failures (put, payload copy) are not modelled; read
failures (short reads) are. -/

inductive FsNode where
  | file : List Nat → FsNode
  | dir : FsNode
deriving DecidableEq

abbrev FS := List (String × FsNode)

/-- Current node at a path. -/
def fsLookup (fs : FS) (p : String) : Option FsNode :=
  match fs.find? (fun e => e.1 == p) with
  | some e => some e.2
  | none => none

/-- Create or truncate-and-write the regular file at `p`. -/
def fsWrite (fs : FS) (p : String) (content : List Nat) : FS :=
  (p, FsNode.file content) :: fs.filter (fun e => !(e.1 == p))

/-- `std::filesystem::remove`: drop the node at `p` (no error if absent). -/
def fsRemove (fs : FS) (p : String) : FS :=
  fs.filter (fun e => !(e.1 == p))

def fsIsDir (fs : FS) (p : String) : Bool :=
  match fsLookup fs p with
  | some FsNode.dir => true
  | _ => false

/-- `std::filesystem::rename src dst`, replacing any node at `dst`. -/
def fsRename (fs : FS) (src dst : String) : FS × Bool :=
  match fsLookup fs src with
  | none => (fs, false)
  | some node => ((dst, node) :: fs.filter (fun e => !(e.1 == src) && !(e.1 == dst)), true)

/-- `std::filesystem::path::filename`: the part after the last slash. -/
def basename (p : String) : String :=
  String.mk (p.data.foldl (fun acc c => if c = '/' then [] else acc ++ [c]) [])

/-- One entry of the archive header, as in part_003 (`source_path` is only
used between `CollectNewEntries` and the encoding loop). -/
structure FileEntry where
  name : String
  source_path : String
  original_size : Nat
  encoded_size : Nat
  offset : Nat
deriving DecidableEq

/-- The bytes of a name; names are byte strings in the C++, modelled here by
their character codes. -/
def nameToBytes (s : String) : List Nat :=
  s.data.map Char.toNat

def bytesToName (l : List Nat) : String :=
  String.mk (l.map Char.ofNat)

/-- `width` bytes of `value`, little endian (raw struct writes in part_003;
a too-large value is truncated exactly as the C++ casts truncate). -/
def leBytes (width value : Nat) : List Nat :=
  (List.range width).map (fun i => value / 256 ^ i % 256)

/-- Little-endian value of a byte list (raw struct reads in part_003). -/
def leValue : List Nat → Nat
  | [] => 0
  | b :: rest => b + 256 * leValue rest

/-- `CalculateHeaderSize`: 3 magic bytes, 4 count bytes, then per entry
2 length bytes, the name bytes and three 8-byte sizes. -/
def CalculateHeaderSize (entries : List FileEntry) : Nat :=
  entries.foldl (fun header_size entry => header_size + 2 + entry.name.length + 8 + 8 + 8) (3 + 4)

/-- `AssignOffsets`: consecutive payload offsets starting at the header size. -/
def AssignOffsets (entries : List FileEntry) (header_size : Nat) : List FileEntry :=
  (entries.foldl
    (fun acc entry =>
      (acc.1 ++ [{ entry with offset := acc.2 }], acc.2 + entry.encoded_size))
    ([], header_size)).1

/-- `WriteArchiveHeader`, as the bytes it writes: magic `HAF`, u32 LE count,
then per entry u16 LE name length, name bytes, and u64 LE original size,
encoded size and offset. -/
def WriteArchiveHeader (entries : List FileEntry) : List Nat :=
  [72, 65, 70] ++ leBytes 4 entries.length ++
    (entries.map (fun entry =>
      leBytes 2 entry.name.length ++ nameToBytes entry.name ++
        leBytes 8 entry.original_size ++ leBytes 8 entry.encoded_size ++
        leBytes 8 entry.offset)).flatten

/-- Entry-reading loop of `ReadArchiveHeader`; returns the entries and the
unread remainder of the stream. -/
def readEntries : Nat → List Nat → Option (List FileEntry × List Nat)
  | 0, rest => some ([], rest)
  | count + 1, rest =>
      if 2 ≤ rest.length then
        let name_length := leValue (rest.take 2)
        let r2 := rest.drop 2
        if name_length ≤ r2.length then
          let r3 := r2.drop name_length
          if 24 ≤ r3.length then
            match readEntries count (r3.drop 24) with
            | some (entries, rem) =>
                some ({ name := bytesToName (r2.take name_length), source_path := "",
                        original_size := leValue (r3.take 8),
                        encoded_size := leValue ((r3.drop 8).take 8),
                        offset := leValue ((r3.drop 16).take 8) } :: entries, rem)
            | none => none
          else none
        else none
      else none

/-- `ReadArchiveHeader`: check the magic, read the count, read the entries.
Returns the entries and the number of bytes consumed (the stream position
after the header, which `Concatenate` takes via `tellg`). -/
def ReadArchiveHeader (bytes : List Nat) : Option (List FileEntry × Nat) :=
  match bytes with
  | 72 :: 65 :: 70 :: rest =>
      if 4 ≤ rest.length then
        match readEntries (leValue (rest.take 4)) (rest.drop 4) with
        | some (entries, rem) => some (entries, bytes.length - rem.length)
        | none => none
      else none
  | _ => none

/-- `CollectNewEntries`: fail on a missing or directory input; otherwise
build an entry per input file with its basename, sizes and a zero offset. -/
def CollectNewEntries (fs : FS) (k r : Nat) : List String → Option (List FileEntry)
  | [] => some []
  | file_path :: rest =>
      match fsLookup fs file_path with
      | some (FsNode.file content) =>
          (CollectNewEntries fs k r rest).map
            (fun entries =>
              { name := basename file_path, source_path := file_path,
                original_size := content.length,
                encoded_size := CalculateEncodedSize k r content.length,
                offset := 0 } :: entries)
      | _ => none

/-- The encoding loop of `Create` and `Append` (`EncodeFileToArchive` per
entry): open each collected source and encode it into the output. -/
def encodeAll (fs : FS) (k r : Nat) : List FileEntry → Option (List Nat)
  | [] => some []
  | entry :: rest =>
      match fsLookup fs entry.source_path with
      | some (FsNode.file content) =>
          (encodeAll fs k r rest).map (fun tail => EncodeStream k r content ++ tail)
      | _ => none

/-- `CopyEntryData`: seek to the entry offset and copy `encoded_size` bytes;
the read fails when the archive holds fewer bytes than the entry claims. -/
def CopyEntryData (bytes : List Nat) (entry : FileEntry) : Option (List Nat) :=
  if entry.encoded_size = 0 then some []
  else if entry.offset + entry.encoded_size ≤ bytes.length then
    some ((bytes.drop entry.offset).take entry.encoded_size)
  else none

/-- Byte-copy loop over a list of entries. -/
def copyAll (bytes : List Nat) : List FileEntry → Option (List Nat)
  | [] => some []
  | entry :: rest =>
      match CopyEntryData bytes entry with
      | some chunk =>
          (copyAll bytes rest).map (fun tail => chunk ++ tail)
      | none => none

/-- `FindEntriesByNames`: for each requested name collect every matching
entry; fail as soon as a name has no match. -/
def FindEntriesByNames (all_entries : List FileEntry) : List String → Option (List FileEntry)
  | [] => some []
  | name :: rest =>
      let matching := all_entries.filter (fun entry => entry.name == name)
      if matching.isEmpty then none
      else (FindEntriesByNames all_entries rest).map (fun found => matching ++ found)

/-- `Archiver::Create`: open the archive with truncation (destroying any
previous regular file at that path), then collect the inputs, write the
header and encode each input; on failure remove the archive file. -/
def Create (fs : FS) (archive_path : String) (k r : Nat) (header_ok : Bool)
    (input_files : List String) : Bool × FS :=
  if fsIsDir fs archive_path then (false, fs)
  else
    let fs1 := fsWrite fs archive_path []
    match CollectNewEntries fs1 k r input_files with
    | none => (false, fsRemove fs1 archive_path)
    | some entries =>
        let entries2 := AssignOffsets entries (CalculateHeaderSize entries)
        if header_ok = false then (false, fsRemove fs1 archive_path)
        else
          match encodeAll fs1 k r entries2 with
          | none => (false, fsRemove fs1 archive_path)
          | some payload =>
              (true, fsWrite fs1 archive_path (WriteArchiveHeader entries2 ++ payload))

/-- Extraction loop of `Archiver::Extract`: per entry, seek to its offset,
create the output file, decode; a decode failure leaves the created output
file behind (truncated) and stops. -/
def extractEntries (fs : FS) (bytes : List Nat) (k r : Nat) : List FileEntry → Bool × FS
  | [] => (true, fs)
  | entry :: rest =>
      if fsIsDir fs entry.name then (false, fs)
      else
        match DecodeStream k r (bytes.drop entry.offset) entry.original_size with
        | none => (false, fsWrite fs entry.name [])
        | some out => extractEntries (fsWrite fs entry.name out) bytes k r rest

/-- `Archiver::Extract`: read the header, resolve the requested names (all
entries when the request list is empty), then extract each selected entry
into the working directory under its stored basename. -/
def Extract (fs : FS) (archive_path : String) (k r : Nat)
    (requested_files : List String) : Bool × FS :=
  match fsLookup fs archive_path with
  | some (FsNode.file bytes) =>
      match ReadArchiveHeader bytes with
      | some (entries, _) =>
          match (if requested_files.isEmpty then some entries
                 else FindEntriesByNames entries requested_files) with
          | some selected => extractEntries fs bytes k r selected
          | none => (false, fs)
      | none => (false, fs)
  | _ => (false, fs)

/-- `Archiver::Append`: read the old header, collect the new inputs, rebuild
into `<archive>.tmp`, then replace the archive.  A failed header write
returns without removing the temp file (unlike the later copy and encode
failures, which remove it). -/
def Append (fs : FS) (archive_path : String) (k r : Nat) (header_ok : Bool)
    (input_files : List String) : Bool × FS :=
  match fsLookup fs archive_path with
  | some (FsNode.file bytes) =>
      match ReadArchiveHeader bytes with
      | some (old_entries, _) =>
          match CollectNewEntries fs k r input_files with
          | some new_entries =>
              let temp_path := archive_path ++ ".tmp"
              let fs1 := fsRemove fs temp_path
              let fs2 := fsWrite fs1 temp_path []
              let all_entries := AssignOffsets (old_entries ++ new_entries)
                (CalculateHeaderSize (old_entries ++ new_entries))
              if header_ok = false then (false, fs2)
              else
                match copyAll bytes old_entries with
                | none => (false, fsRemove fs2 temp_path)
                | some old_payload =>
                    match encodeAll fs2 k r new_entries with
                    | none => (false, fsRemove fs2 temp_path)
                    | some new_payload =>
                        let fs3 := fsWrite fs2 temp_path
                          (WriteArchiveHeader all_entries ++ old_payload ++ new_payload)
                        let fs4 := fsRemove fs3 archive_path
                        let renamed := fsRename fs4 temp_path archive_path
                        (renamed.2, renamed.1)
          | none => (false, fs)
      | none => (false, fs)
  | _ => (false, fs)

/-- `Archiver::Delete`: validate that every requested name is present, build
the kept-entry list, fail if nothing would be removed, otherwise rebuild
into `<archive>.tmp` (copying payloads at their old offsets) and replace the
archive. -/
def Delete (fs : FS) (archive_path : String) (header_ok : Bool)
    (files_to_delete : List String) : Bool × FS :=
  match fsLookup fs archive_path with
  | some (FsNode.file bytes) =>
      match ReadArchiveHeader bytes with
      | some (old_entries, _) =>
          if files_to_delete.all (fun name => old_entries.any (fun entry => entry.name == name))
          then
            let keep_entries := old_entries.filter
              (fun entry => !(files_to_delete.any (fun name => entry.name == name)))
            if keep_entries.length = old_entries.length then (false, fs)
            else
              let temp_path := archive_path ++ ".tmp"
              let fs1 := fsRemove fs temp_path
              let fs2 := fsWrite fs1 temp_path []
              let keep2 := AssignOffsets keep_entries (CalculateHeaderSize keep_entries)
              if header_ok = false then (false, fsRemove fs2 temp_path)
              else
                match copyAll bytes keep_entries with
                | none => (false, fsRemove fs2 temp_path)
                | some payload =>
                    let fs3 := fsWrite fs2 temp_path (WriteArchiveHeader keep2 ++ payload)
                    let fs4 := fsRemove fs3 archive_path
                    let renamed := fsRename fs4 temp_path archive_path
                    (renamed.2, renamed.1)
          else (false, fs)
      | none => (false, fs)
  | _ => (false, fs)

/-- Decimal-digit worker, structurally recursive on fuel so that concrete
instances reduce; `decChars` supplies enough fuel. -/
def decCharsAux : Nat → Nat → List Char
  | 0, n => [Char.ofNat (48 + n % 10)]
  | fuel + 1, n =>
      if n < 10 then [Char.ofNat (48 + n)]
      else decCharsAux fuel (n / 10) ++ [Char.ofNat (48 + n % 10)]

/-- Decimal digits of a natural number, as `std::to_string` produces them. -/
def decChars (n : Nat) : List Char :=
  decCharsAux n n

/-- `std::to_string`. -/
def natToString (n : Nat) : String :=
  String.mk (decChars n)

/-- The rename loop of `Concatenate`: try `name(2)`, `name(3)`, ... until a
name is free.  The C++ loop runs unboundedly; here it carries fuel, and it
is always called with enough fuel to find a free name (see
`FindFreeName_spec`). -/
def FindFreeName (used_names : List String) (original_name : String) : Nat → Nat → String
  | 0, suffix => original_name ++ "(" ++ natToString suffix ++ ")"
  | fuel + 1, suffix =>
      let candidate := original_name ++ "(" ++ natToString suffix ++ ")"
      if candidate ∈ used_names then FindFreeName used_names original_name fuel (suffix + 1)
      else candidate

/-- Per-entry renaming of `Concatenate`: an already-used name gets the first
free parenthesised suffix starting at 2; a fresh name is kept. -/
def RenameEntryName (used_names : List String) (name : String) : String :=
  if name ∈ used_names then FindFreeName used_names name (used_names.length + 1) 2
  else name

/-- Header-collection loop of `Concatenate`: read each source header, rename
entries against the running `used_names` set, record each source with its
data start (the position after its header) and data length. -/
def collectSources (fs : FS) :
    List String → List FileEntry → List String →
    Option (List FileEntry × List String × List (String × Nat × Nat))
  | [], combined, used => some (combined, used, [])
  | src_path :: rest, combined, used =>
      match fsLookup fs src_path with
      | some (FsNode.file bytes) =>
          match ReadArchiveHeader bytes with
          | some (entries, consumed) =>
              let step := entries.foldl
                (fun acc entry =>
                  let new_name := RenameEntryName acc.2 entry.name
                  (acc.1 ++ [{ entry with name := new_name }], new_name :: acc.2))
                (combined, used)
              let data_length :=
                if bytes.length > consumed then bytes.length - consumed else 0
              match collectSources fs rest step.1 step.2 with
              | some (c3, u3, sources) =>
                  some (c3, u3, (src_path, consumed, data_length) :: sources)
              | none => none
          | none => none
      | _ => none

/-- Payload-copy loop of `Concatenate`: copy each source payload region. -/
def copySources (fs : FS) : List (String × Nat × Nat) → Option (List Nat)
  | [] => some []
  | (src_path, data_start, data_length) :: rest =>
      match fsLookup fs src_path with
      | some (FsNode.file bytes) =>
          if data_start + data_length ≤ bytes.length then
            (copySources fs rest).map
              (fun tail => (bytes.drop data_start).take data_length ++ tail)
          else none
      | _ => none

/-- `Archiver::Concatenate`: merge the source archives into `<target>.tmp`
(renaming duplicate entry names), then replace the target. -/
def Concatenate (fs : FS) (target : String) (header_ok : Bool)
    (source_archives : List String) : Bool × FS :=
  let temp_path := target ++ ".tmp"
  let fs1 := fsRemove fs temp_path
  let fs2 := fsWrite fs1 temp_path []
  match collectSources fs2 source_archives [] [] with
  | none => (false, fsRemove fs2 temp_path)
  | some (combined, _, sources) =>
      let combined2 := AssignOffsets combined (CalculateHeaderSize combined)
      if header_ok = false then (false, fsRemove fs2 temp_path)
      else
        match copySources fs2 sources with
        | none => (false, fsRemove fs2 temp_path)
        | some payload =>
            let fs3 := fsWrite fs2 temp_path (WriteArchiveHeader combined2 ++ payload)
            let fs4 := fsRemove fs3 target
            let renamed := fsRename fs4 temp_path target
            (renamed.2, renamed.1)

/-! ### Lemmas: bit and byte packing -/

theorem bitsToNat_testBit (l : List Bool) (i : Nat) :
    (bitsToNat l).testBit i = l.getD i false := by
  induction l generalizing i with
  | nil => simp [bitsToNat]
  | cons b rest ih =>
      cases i with
      | zero =>
          simp only [bitsToNat, Nat.testBit_zero, List.getD_cons_zero]
          cases b <;> simp <;> omega
      | succ j =>
          simp only [bitsToNat, List.getD_cons_succ]
          rw [← Nat.testBit_div_two]
          have hdiv : ((if b then 1 else 0) + 2 * bitsToNat rest) / 2 = bitsToNat rest := by
            cases b <;> simp <;> omega
          rw [hdiv, ih]

theorem bitsToNat_lt (l : List Bool) : bitsToNat l < 2 ^ l.length := by
  induction l with
  | nil => simp [bitsToNat]
  | cons b rest ih =>
      simp only [bitsToNat, List.length_cons, Nat.pow_succ]
      cases b <;> simp <;> omega

theorem natToBits_length (w v : Nat) : (natToBits w v).length = w := by
  simp [natToBits]

theorem natToBits_bitsToNat (l : List Bool) (w : Nat) (hw : l.length ≤ w) :
    natToBits w (bitsToNat l) = l ++ List.replicate (w - l.length) false := by
  apply List.ext_getElem
  · simp [natToBits]; omega
  · intro i hi₁ hi₂
    simp only [natToBits, List.getElem_map, List.getElem_range]
    rw [bitsToNat_testBit]
    by_cases h : i < l.length
    · rw [List.getElem_append_left h, List.getD_eq_getElem l false h]
    · rw [List.getElem_append_right (by omega)]
      simp only [List.getElem_replicate]
      exact List.getD_eq_default _ _ (by omega)

theorem natToBits_bitsToNat_self (l : List Bool) :
    natToBits l.length (bitsToNat l) = l := by
  simpa using natToBits_bitsToNat l l.length le_rfl

theorem bitsToNat_natToBits (w v : Nat) (hv : v < 2 ^ w) :
    bitsToNat (natToBits w v) = v := by
  apply Nat.eq_of_testBit_eq
  intro i
  rw [bitsToNat_testBit]
  by_cases h : i < w
  · rw [List.getD_eq_getElem _ false (by simpa [natToBits] using h)]
    simp [natToBits]
  · rw [List.getD_eq_default _ _ (by simpa [natToBits] using h)]
    exact (Nat.testBit_lt_two_pow (lt_of_lt_of_le hv
      (Nat.pow_le_pow_right (by omega) (by omega)))).symm

theorem byteToBits_eq (b : Nat) : byteToBits b = natToBits 8 b := rfl

theorem bytesToBits_length (bs : List Nat) : (bytesToBits bs).length = 8 * bs.length := by
  induction bs with
  | nil => simp [bytesToBits]
  | cons b rest ih =>
      simp only [bytesToBits, List.map_cons, List.flatten_cons, List.length_append]
      simp only [bytesToBits] at ih
      simp [byteToBits, ih]; omega

theorem toBlocksAux_fuel (k : Nat) :
    ∀ (fuel1 fuel2 : Nat) (l : List Bool), l.length ≤ fuel1 → l.length ≤ fuel2 →
      toBlocksAux k fuel1 l = toBlocksAux k fuel2 l := by
  intro fuel1
  induction fuel1 with
  | zero =>
      intro fuel2 l h1 h2
      have : l = [] := List.eq_nil_of_length_eq_zero (by omega)
      subst this
      cases fuel2 with
      | zero => rfl
      | succ f => simp [toBlocksAux]
  | succ f1 ih =>
      intro fuel2 l h1 h2
      rcases eq_or_ne l [] with rfl | hne
      · cases fuel2 with
        | zero => simp [toBlocksAux]
        | succ f => simp [toBlocksAux]
      · have hlen : 0 < l.length := List.length_pos.mpr hne
        cases fuel2 with
        | zero => omega
        | succ f2 =>
            by_cases hk : k = 0
            · simp [toBlocksAux, hk]
            · simp only [toBlocksAux, hne, hk, or_self, if_false, false_or, if_neg]
              rw [ih f2 (l.drop k) (by simp [List.length_drop]; omega)
                (by simp [List.length_drop]; omega)]

theorem toBlocks_nil (k : Nat) : toBlocks k [] = [] := rfl

theorem toBlocks_pos (k : Nat) (l : List Bool) (hk : k ≠ 0) (hl : l ≠ []) :
    toBlocks k l = l.take k :: toBlocks k (l.drop k) := by
  unfold toBlocks
  have hlen : 0 < l.length := List.length_pos.mpr hl
  have hstep : toBlocksAux k l.length l =
      toBlocksAux k ((l.length - 1) + 1) l := by
    rw [toBlocksAux_fuel k l.length ((l.length - 1) + 1) l le_rfl (by omega)]
  rw [hstep]
  simp only [toBlocksAux, hl, hk, or_self, if_false]
  rw [toBlocksAux_fuel k (l.length - 1) (l.drop k).length (l.drop k)
    (by simp [List.length_drop]; omega) le_rfl]

theorem toBlocks_length (k : Nat) (hk : 0 < k) (l : List Bool) :
    (toBlocks k l).length = (l.length + k - 1) / k := by
  have key : ∀ m (l : List Bool), l.length ≤ m →
      (toBlocks k l).length = (l.length + k - 1) / k := by
    intro m
    induction m with
    | zero =>
        intro l hl
        have : l = [] := List.eq_nil_of_length_eq_zero (by omega)
        subst this
        simp [toBlocks_nil, Nat.div_eq_of_lt (show k - 1 < k by omega)]
    | succ m ih =>
        intro l hl
        rcases eq_or_ne l [] with rfl | hne
        · simp [toBlocks_nil, Nat.div_eq_of_lt (show k - 1 < k by omega)]
        · rw [toBlocks_pos k l (by omega) hne]
          have hlen : 0 < l.length := List.length_pos.mpr hne
          simp only [List.length_cons]
          rw [ih _ (by simp [List.length_drop]; omega)]
          simp only [List.length_drop]
          rcases le_or_lt l.length k with hle | hlt
          · have h1 : l.length - k = 0 := by omega
            rw [h1]
            rw [Nat.div_eq_of_lt (show 0 + k - 1 < k by omega)]
            have h5 : (l.length + k - 1) / k = 1 := by
              have : l.length + k - 1 = (l.length - 1) + 1 * k := by omega
              rw [this, Nat.add_mul_div_right _ _ hk, Nat.div_eq_of_lt (by omega)]
            omega
          · have h2 : l.length - k + k - 1 = (l.length - 1 - k) + k := by omega
            have h3 : l.length + k - 1 = (l.length - 1) + k := by omega
            rw [h2, h3, Nat.add_div_right _ hk, Nat.add_div_right _ hk]
            have h4 : l.length - 1 - k + k = l.length - 1 := by omega
            rw [← h4, Nat.add_div_right _ hk]
            have h5 : l.length - 1 - k + k - k = l.length - 1 - k := by omega
            rw [h5]
  exact key l.length l le_rfl

theorem flatten_map_length {α : Type} (bl : List α) (f : α → List Bool) (n : Nat)
    (h : ∀ b ∈ bl, (f b).length = n) :
    ((bl.map f).flatten).length = bl.length * n := by
  induction bl with
  | nil => simp
  | cons b rest ih =>
      simp only [List.map_cons, List.flatten_cons, List.length_append, List.length_cons]
      rw [h b (by simp), ih (fun x hx => h x (by simp [hx]))]
      ring

theorem toBlocks_flatten (n : Nat) (hn : 0 < n) (bl : List (List Bool))
    (h : ∀ b ∈ bl, b.length = n) :
    toBlocks n bl.flatten = bl := by
  induction bl with
  | nil => simp [toBlocks_nil]
  | cons b rest ih =>
      have hb : b.length = n := h b (by simp)
      have hflat : (b :: rest).flatten = b ++ rest.flatten := by simp
      have hne : b ++ rest.flatten ≠ [] := by
        intro hcon
        have := congrArg List.length hcon
        simp [hb] at this
        omega
      rw [hflat, toBlocks_pos n _ (by omega) hne, ← hb, List.take_left, List.drop_left]
      rw [hb, ih (fun x hx => h x (by simp [hx]))]

theorem bytesToBits_bitsToBytes (l : List Bool) :
    ∃ m, bytesToBits (bitsToBytes l) = l ++ List.replicate m false := by
  have key : ∀ c (l : List Bool), l.length ≤ c →
      ∃ m, bytesToBits (bitsToBytes l) = l ++ List.replicate m false := by
    intro c
    induction c with
    | zero =>
        intro l hl
        have : l = [] := List.eq_nil_of_length_eq_zero (by omega)
        subst this
        exact ⟨0, by simp [bytesToBits, bitsToBytes, toBlocks_nil]⟩
    | succ c ih =>
        intro l hl
        rcases eq_or_ne l [] with rfl | hne
        · exact ⟨0, by simp [bytesToBits, bitsToBytes, toBlocks_nil]⟩
        · have hlen : 0 < l.length := List.length_pos.mpr hne
          have hstep : bitsToBytes l = bitsToNat (l.take 8) :: bitsToBytes (l.drop 8) := by
            simp only [bitsToBytes]
            rw [toBlocks_pos 8 l (by omega) hne, List.map_cons]
          have hhead : byteToBits (bitsToNat (l.take 8)) =
              l.take 8 ++ List.replicate (8 - (l.take 8).length) false := by
            rw [byteToBits_eq]
            exact natToBits_bitsToNat _ _ (by simp)
          rcases le_or_lt l.length 8 with hle | hlt
          · have hdrop : l.drop 8 = [] := List.drop_eq_nil_of_le hle
            have htake : l.take 8 = l := List.take_all_of_le hle
            refine ⟨8 - l.length, ?_⟩
            rw [hstep, hdrop]
            simp only [bytesToBits, bitsToBytes, toBlocks_nil, List.map_cons, List.map_nil,
              List.flatten_cons, List.flatten_nil, List.append_nil]
            rw [hhead, htake]
          · obtain ⟨m, hm⟩ := ih (l.drop 8) (by simp [List.length_drop]; omega)
            refine ⟨m, ?_⟩
            rw [hstep]
            simp only [bytesToBits, List.map_cons, List.flatten_cons]
            simp only [bytesToBits] at hm
            rw [hm, hhead]
            have : (l.take 8).length = 8 := by simp; omega
            rw [this]
            simp only [Nat.sub_self, List.replicate_zero, List.append_nil]
            rw [← List.append_assoc, List.take_append_drop]
  exact key l.length l le_rfl

theorem bitsToBytes_bytesToBits (bs : List Nat) (h : ∀ b ∈ bs, b < 256) :
    bitsToBytes (bytesToBits bs) = bs := by
  have hblocks : toBlocks 8 (bytesToBits bs) = bs.map byteToBits := by
    apply toBlocks_flatten 8 (by omega)
    intro b hb
    rcases List.mem_map.mp hb with ⟨x, _, rfl⟩
    simp [byteToBits]
  simp only [bitsToBytes, hblocks, List.map_map]
  have : ∀ b ∈ bs, (bitsToNat ∘ byteToBits) b = b := by
    intro b hb
    simp only [Function.comp_apply, byteToBits_eq]
    exact bitsToNat_natToBits 8 b (h b hb)
  calc bs.map (bitsToNat ∘ byteToBits) = bs.map id := List.map_congr_left this
    _ = bs := List.map_id bs

/-! ### Lemmas: XOR folds (parity computations) -/

theorem xorFold_init (f : Nat → Bool) (l : List Nat) (a : Bool) :
    l.foldl (fun acc q => xor acc (f q)) a = xor a (l.foldl (fun acc q => xor acc (f q)) false) := by
  induction l generalizing a with
  | nil => simp
  | cons q rest ih =>
      simp only [List.foldl_cons]
      rw [ih (xor a (f q)), ih (xor false (f q))]
      cases a <;> cases f q <;> simp

theorem xorFold_congr (f g : Nat → Bool) (l : List Nat) (h : ∀ q ∈ l, f q = g q) :
    l.foldl (fun acc q => xor acc (f q)) false = l.foldl (fun acc q => xor acc (g q)) false := by
  induction l with
  | nil => rfl
  | cons q rest ih =>
      simp only [List.foldl_cons]
      rw [xorFold_init f, xorFold_init g, h q (by simp),
        ih (fun x hx => h x (by simp [hx]))]

theorem xorFold_flip (f g : Nat → Bool) (l : List Nat) (q0 : Nat)
    (hnd : l.Nodup) (hq0 : q0 ∈ l)
    (hsame : ∀ q ∈ l, q ≠ q0 → g q = f q) (hflip : g q0 = !f q0) :
    l.foldl (fun acc q => xor acc (g q)) false = !(l.foldl (fun acc q => xor acc (f q)) false) := by
  induction l with
  | nil => simp at hq0
  | cons q rest ih =>
      simp only [List.foldl_cons]
      rw [xorFold_init f, xorFold_init g]
      rcases List.mem_cons.mp hq0 with rfl | hmem
      · have hrest : ∀ x ∈ rest, g x = f x := by
          intro x hx
          exact hsame x (by simp [hx]) (by rintro rfl; exact (List.nodup_cons.mp hnd).1 hx)
        rw [xorFold_congr g f rest (fun x hx => hrest x hx), hflip]
        cases f q0 <;> simp
      · have hq : g q = f q :=
          hsame q (by simp) (by rintro rfl; exact (List.nodup_cons.mp hnd).1 hmem)
        rw [hq, ih (List.nodup_cons.mp hnd).2 hmem
          (fun x hx hne => hsame x (by simp [hx]) hne)]
        cases f q <;> simp

/-! ### Lemmas: OR folds (bit placement) -/

theorem orFold_testBit_preserved (step : Nat → Nat → Nat)
    (hstep : ∀ cw p, step cw p = cw ∨ step cw p = cw ||| 2 ^ (p - 1))
    (l : List Nat) (cw j : Nat) (hj : ∀ p ∈ l, p - 1 ≠ j) :
    (l.foldl step cw).testBit j = cw.testBit j := by
  induction l generalizing cw with
  | nil => rfl
  | cons p rest ih =>
      simp only [List.foldl_cons]
      rw [ih _ (fun x hx => hj x (by simp [hx]))]
      rcases hstep cw p with h | h
      · rw [h]
      · rw [h, Nat.testBit_or, Nat.testBit_two_pow_of_ne (hj p (by simp))]
        simp

theorem placeLoop_testBit_preserved (d : Nat) (l : List Nat) (idx cw j : Nat)
    (hj : ∀ p ∈ l, p - 1 ≠ j) :
    (placeLoop d l idx cw).testBit j = cw.testBit j := by
  induction l generalizing idx cw with
  | nil => rfl
  | cons p rest ih =>
      simp only [placeLoop]
      rw [ih _ _ (fun x hx => hj x (by simp [hx]))]
      split
      · rw [Nat.testBit_or, Nat.testBit_two_pow_of_ne (hj p (by simp))]
        simp
      · rfl

theorem placeLoop_testBit_get (d : Nat) (l : List Nat) (idx cw : Nat)
    (hpos : ∀ p ∈ l, 1 ≤ p) (hnd : (l.map (· - 1)).Nodup)
    (i : Nat) (hi : i < l.length) (hcw : cw.testBit (l[i] - 1) = false) :
    (placeLoop d l idx cw).testBit (l[i] - 1) = d.testBit (idx + i) := by
  induction l generalizing idx cw i with
  | nil => simp at hi
  | cons p rest ih =>
      simp only [placeLoop]
      rcases List.nodup_cons.mp hnd with ⟨hp_notmem, hnd_rest⟩
      have hpos_rest : ∀ x ∈ rest, 1 ≤ x := fun x hx => hpos x (by simp [hx])
      cases i with
      | zero =>
          simp only [List.getElem_cons_zero] at hcw ⊢
          have hpres : ∀ x ∈ rest, x - 1 ≠ p - 1 := by
            intro x hx hcon
            apply hp_notmem
            rw [show (fun x => x - 1) p = p - 1 from rfl, ← hcon]
            exact List.mem_map_of_mem (· - 1) hx
          rw [placeLoop_testBit_preserved d rest _ _ _ hpres]
          rcases hbit : d.testBit idx with _ | _
          · simp only [hbit, Bool.false_eq_true, if_false, Nat.add_zero]
            exact hcw
          · simp only [hbit, if_true, Nat.add_zero, Nat.testBit_or,
              Nat.testBit_two_pow_self, hcw]
            rfl
      | succ j =>
          have hj : j < rest.length := by
            simp only [List.length_cons] at hi
            omega
          simp only [List.getElem_cons_succ] at hcw ⊢
          have harith : idx + (j + 1) = (idx + 1) + j := by omega
          rw [harith]
          have hne : p - 1 ≠ rest[j] - 1 := by
            intro hcon
            apply hp_notmem
            rw [show (fun x => x - 1) p = p - 1 from rfl, hcon]
            exact List.mem_map_of_mem (· - 1) (List.getElem_mem hj)
          rcases hbit : d.testBit idx with _ | _
          · simp only [hbit, Bool.false_eq_true, if_false]
            exact ih (idx + 1) cw hpos_rest hnd_rest j hj hcw
          · simp only [hbit, if_true]
            apply ih (idx + 1) _ hpos_rest hnd_rest j hj
            rw [Nat.testBit_or, Nat.testBit_two_pow_of_ne hne, hcw]
            rfl

theorem extractLoop_testBit_low (cw : Nat) (l : List Nat) (idx acc j : Nat) (hj : j < idx) :
    (extractLoop cw l idx acc).testBit j = acc.testBit j := by
  induction l generalizing idx acc with
  | nil => rfl
  | cons p rest ih =>
      simp only [extractLoop]
      rw [ih _ _ (by omega)]
      split
      · rw [Nat.testBit_or, Nat.testBit_two_pow_of_ne (by omega)]
        simp
      · rfl

theorem extractLoop_testBit (cw : Nat) (l : List Nat) (idx acc j : Nat)
    (hj : idx ≤ j) (hacc : acc.testBit j = false) :
    (extractLoop cw l idx acc).testBit j =
      if h : j - idx < l.length then cw.testBit (l[j - idx] - 1) else false := by
  induction l generalizing idx acc with
  | nil => simpa [extractLoop]
  | cons p rest ih =>
      simp only [extractLoop]
      rcases eq_or_lt_of_le hj with rfl | hlt
      · rw [extractLoop_testBit_low cw rest (idx + 1) _ idx (by omega)]
        simp only [Nat.sub_self, List.length_cons, List.getElem_cons_zero,
          dif_pos (by omega : 0 < rest.length + 1)]
        split
        · rw [Nat.testBit_or, Nat.testBit_two_pow_self, hacc]
          simp_all
        · rw [hacc]
          simp_all
      · have hstep : j - idx = (j - (idx + 1)) + 1 := by omega
        have hacc2 : ∀ b : Bool,
            (if cw.testBit (p - 1) then acc ||| 2 ^ idx else acc).testBit j = false := by
          intro b
          split
          · rw [Nat.testBit_or, Nat.testBit_two_pow_of_ne (by omega), hacc]
            rfl
          · exact hacc
        rw [ih (idx + 1) _ (by omega) (hacc2 true), hstep]
        by_cases hlen : j - (idx + 1) < rest.length
        · rw [dif_pos hlen, dif_pos (by simp; omega), List.getElem_cons_succ]
        · rw [dif_neg hlen, dif_neg (by simp; omega)]

/-! ### Lemmas: position lists -/

theorem mem_nonParityPositions {n p : Nat} :
    p ∈ nonParityPositions n ↔ (1 ≤ p ∧ p ≤ n ∧ isParityPosition p = false) := by
  simp only [nonParityPositions, List.mem_filter, List.mem_map, List.mem_range]
  constructor
  · rintro ⟨⟨j, hj, rfl⟩, hpar⟩
    refine ⟨by omega, by omega, by simpa using hpar⟩
  · rintro ⟨h1, h2, h3⟩
    exact ⟨⟨p - 1, by omega, by omega⟩, by simp [h3]⟩

theorem mem_parityPositions {n p : Nat} (hn : 1 ≤ n) :
    p ∈ parityPositions n ↔ (∃ j, p = 2 ^ j) ∧ p ≤ n := by
  simp only [parityPositions, List.mem_filter, List.mem_map, List.mem_range, decide_eq_true_eq]
  constructor
  · rintro ⟨⟨j, hj, rfl⟩, hle⟩
    exact ⟨⟨j, rfl⟩, hle⟩
  · rintro ⟨⟨j, rfl⟩, hle⟩
    refine ⟨⟨j, ?_, rfl⟩, hle⟩
    have := Nat.lt_two_pow j
    omega

theorem mem_coverPositions {n p q : Nat} :
    q ∈ coverPositions n p ↔ (1 ≤ q ∧ q ≤ n ∧ q &&& p ≠ 0) := by
  simp only [coverPositions, List.mem_filter, List.mem_map, List.mem_range, bne_iff_ne]
  constructor
  · rintro ⟨⟨j, hj, rfl⟩, hand⟩
    exact ⟨by omega, by omega, hand⟩
  · rintro ⟨h1, h2, h3⟩
    exact ⟨⟨q - 1, by omega, by omega⟩, h3⟩

theorem positionsBase_nodup (n : Nat) : ((List.range n).map (· + 1)).Nodup :=
  (List.nodup_range n).map (fun a b h => by omega)

theorem nonParityPositions_nodup (n : Nat) : (nonParityPositions n).Nodup :=
  (positionsBase_nodup n).filter _

theorem parityPositions_nodup (n : Nat) : (parityPositions n).Nodup := by
  apply List.Nodup.filter
  exact (List.nodup_range n).map (Nat.pow_right_injective (by omega))

theorem coverPositions_nodup (n p : Nat) : (coverPositions n p).Nodup :=
  (positionsBase_nodup n).filter _

theorem nonParityPositions_pairwise_lt (n : Nat) :
    (nonParityPositions n).Pairwise (· < ·) := by
  apply List.Pairwise.filter
  exact List.Pairwise.map (· + 1) (fun a b h => Nat.succ_lt_succ h) (List.pairwise_lt_range n)

theorem nonParityPositions_sub_one_nodup (n : Nat) :
    ((nonParityPositions n).map (· - 1)).Nodup := by
  have h2 : (nonParityPositions n).Pairwise (fun a b => a - 1 < b - 1) :=
    (nonParityPositions_pairwise_lt n).imp_of_mem
      (fun ha _ hab => by
        have h1 := (mem_nonParityPositions.mp ha).1
        omega)
  have h3 : ((nonParityPositions n).map (· - 1)).Pairwise (· < ·) :=
    List.pairwise_map.mpr h2
  exact h3.imp (fun h => Nat.ne_of_lt h)

theorem isParityPosition_two_pow (j : Nat) : isParityPosition (2 ^ j) = true := by
  simp only [isParityPosition, beq_iff_eq]
  apply Nat.eq_of_testBit_eq
  intro i
  rw [Nat.testBit_land, Nat.zero_testBit]
  by_cases h : i = j
  · subst h
    rw [Nat.testBit_lt_two_pow (show 2 ^ i - 1 < 2 ^ i by have := Nat.two_pow_pos i; omega)]
    simp
  · rw [Nat.testBit_two_pow_of_ne (fun hc => h hc.symm)]
    rfl

theorem two_pow_land_two_pow (a b : Nat) (h : a ≠ b) : 2 ^ a &&& 2 ^ b = 0 := by
  apply Nat.eq_of_testBit_eq
  intro i
  rw [Nat.testBit_land, Nat.zero_testBit]
  by_cases ha : a = i
  · subst ha
    rw [Nat.testBit_two_pow_of_ne (show b ≠ a by omega)]
    simp
  · rw [Nat.testBit_two_pow_of_ne ha]
    rfl

theorem land_two_pow_ne_zero_iff (x j : Nat) : x &&& 2 ^ j ≠ 0 ↔ x.testBit j = true := by
  constructor
  · intro h
    by_contra hbit
    apply h
    apply Nat.eq_of_testBit_eq
    intro i
    rw [Nat.testBit_land, Nat.zero_testBit]
    by_cases hij : j = i
    · subst hij
      simp [Bool.not_eq_true] at hbit
      simp [hbit]
    · rw [Nat.testBit_two_pow_of_ne hij]
      simp
  · intro h hzero
    have := congrArg (fun x => x.testBit j) hzero
    simp only [Nat.testBit_land, Nat.testBit_two_pow_self, Nat.zero_testBit,
      Bool.and_true] at this
    rw [h] at this
    exact Bool.true_eq_false.mp this

theorem testBit_true_ge (x j : Nat) (h : x.testBit j = true) : 2 ^ j ≤ x := by
  rw [Nat.testBit_to_div_mod, decide_eq_true_eq] at h
  have h1 : 1 ≤ x / 2 ^ j := by
    rcases Nat.eq_zero_or_pos (x / 2 ^ j) with hz | hp
    · rw [hz] at h
      simp at h
    · exact hp
  exact (Nat.one_le_div_iff (Nat.two_pow_pos j)).mp h1

/-! ### Lemmas: EncodeBlock invariants -/

theorem computeParityBit_congr (cw cw2 n p : Nat)
    (h : ∀ q ∈ coverPositions n p, cw2.testBit (q - 1) = cw.testBit (q - 1)) :
    computeParityBit cw2 n p = computeParityBit cw n p := by
  unfold computeParityBit
  exact xorFold_congr _ _ _ h

theorem computeParityBit_flip (cw cw2 n p q0 : Nat) (hq0 : q0 ∈ coverPositions n p)
    (hsame : ∀ q ∈ coverPositions n p, q ≠ q0 → cw2.testBit (q - 1) = cw.testBit (q - 1))
    (hflip : cw2.testBit (q0 - 1) = !cw.testBit (q0 - 1)) :
    computeParityBit cw2 n p = !computeParityBit cw n p := by
  unfold computeParityBit
  exact xorFold_flip _ _ _ q0 (coverPositions_nodup n p) hq0 hsame hflip

/-- The parity-filling fold of `EncodeBlock`. -/
def parityStep (n : Nat) (codeword p : Nat) : Nat :=
  if computeParityBit codeword n p then codeword ||| 2 ^ (p - 1) else codeword

theorem EncodeBlock_eq_fold (k r d : Nat) :
    EncodeBlock k r d =
      (parityPositions (k + r)).foldl (parityStep (k + r))
        (placeLoop d (nonParityPositions (k + r)) 0 0) := rfl

theorem parityStep_cases (n cw p : Nat) :
    parityStep n cw p = cw ∨ parityStep n cw p = cw ||| 2 ^ (p - 1) := by
  unfold parityStep
  split
  · right; rfl
  · left; rfl

theorem parityFold_testBit_preserved (n : Nat) (P : List Nat) (cw j : Nat)
    (hj : ∀ p ∈ P, p - 1 ≠ j) :
    (P.foldl (parityStep n) cw).testBit j = cw.testBit j :=
  orFold_testBit_preserved (parityStep n) (parityStep_cases n) P cw j hj

theorem parityFold_all_clear (n : Nat) (P : List Nat) (cw : Nat)
    (hpow : ∀ p ∈ P, ∃ j, p = 2 ^ j) (hbound : ∀ p ∈ P, 1 ≤ p ∧ p ≤ n)
    (hnd : P.Nodup) (hclear : ∀ p ∈ P, cw.testBit (p - 1) = false) :
    ∀ p ∈ P, computeParityBit (P.foldl (parityStep n) cw) n p = false := by
  induction P generalizing cw with
  | nil => intro p hp; simp at hp
  | cons p rest ih =>
      rcases List.nodup_cons.mp hnd with ⟨hp_notmem, hnd_rest⟩
      obtain ⟨jp, hjp⟩ := hpow p (by simp)
      have hp1 : 1 ≤ p := (hbound p (by simp)).1
      have hpn : p ≤ n := (hbound p (by simp)).2
      have hdiff_pos : ∀ x ∈ rest, x - 1 ≠ p - 1 := by
        intro x hx hcon
        obtain ⟨jx, hjx⟩ := hpow x (by simp [hx])
        have hx1 : 1 ≤ x := (hbound x (by simp [hx])).1
        have : x = p := by omega
        exact hp_notmem (this ▸ hx)
      have hland : ∀ x ∈ rest, x &&& p = 0 := by
        intro x hx
        obtain ⟨jx, hjx⟩ := hpow x (by simp [hx])
        have hxp : x ≠ p := fun hcon => hp_notmem (hcon ▸ hx)
        rw [hjx, hjp]
        exact two_pow_land_two_pow jx jp (fun hcon => hxp (by rw [hjx, hjp, hcon]))
      -- after the head step, parity check at `p` holds
      have hstep_clear : computeParityBit (parityStep n cw p) n p = false := by
        unfold parityStep
        rcases hpar : computeParityBit cw n p with _ | _
        · simp [hpar]
        · simp only [hpar, if_true]
          have hmem : p ∈ coverPositions n p := by
            rw [mem_coverPositions]
            refine ⟨hp1, hpn, ?_⟩
            rw [Nat.and_self]
            omega
          rw [computeParityBit_flip cw (cw ||| 2 ^ (p - 1)) n p p hmem
            (fun q hq hne => by
              rw [Nat.testBit_or, Nat.testBit_two_pow_of_ne
                (by
                  intro hcon
                  have hq1 := (mem_coverPositions.mp hq).1
                  exact hne (by omega))]
              simp)
            (by
              rw [Nat.testBit_or, Nat.testBit_two_pow_self, hclear p (by simp)]
              rfl), hpar]
          rfl
      -- the rest of the fold leaves the parity check at `p` untouched
      intro q hq
      rcases List.mem_cons.mp hq with rfl | hqrest
      · simp only [List.foldl_cons]
        rw [computeParityBit_congr (parityStep n cw q) _ n q
          (fun x hx =>
            parityFold_testBit_preserved n rest (parityStep n cw q) (x - 1)
              (fun y hy hcon => by
                have hyx : y &&& q = 0 := hland y hy
                have hx3 := (mem_coverPositions.mp hx).2.2
                have hy1 := (hbound y (by simp [hy])).1
                have hx1 := (mem_coverPositions.mp hx).1
                have : y = x := by omega
                subst this
                rw [hyx] at hx3
                exact hx3 rfl))]
        exact hstep_clear
      · simp only [List.foldl_cons]
        refine ih (parityStep n cw p)
          (fun x hx => hpow x (by simp [hx]))
          (fun x hx => hbound x (by simp [hx])) hnd_rest
          (fun x hx => ?_) q hqrest
        rcases parityStep_cases n cw p with hcase | hcase
        · rw [hcase]
          exact hclear x (by simp [hx])
        · rw [hcase, Nat.testBit_or, Nat.testBit_two_pow_of_ne
            (fun hcon => hdiff_pos x hx hcon.symm), hclear x (by simp [hx])]
          rfl

theorem placeLoop_parity_clear (n d p : Nat) (hp : p ∈ parityPositions n) :
    (placeLoop d (nonParityPositions n) 0 0).testBit (p - 1) = false := by
  have hn : 1 ≤ n := by
    rcases (List.mem_filter.mp hp) with ⟨hmem, _⟩
    rcases List.mem_map.mp hmem with ⟨j, hj, _⟩
    simp only [List.mem_range] at hj
    omega
  obtain ⟨⟨j, rfl⟩, hle⟩ := (mem_parityPositions hn).mp hp
  rw [placeLoop_testBit_preserved d _ 0 0 _
    (fun q hq hcon => by
      obtain ⟨hq1, _, hqnp⟩ := mem_nonParityPositions.mp hq
      have h2 := Nat.two_pow_pos j
      have : q = 2 ^ j := by omega
      rw [this, isParityPosition_two_pow] at hqnp
      exact Bool.true_eq_false.mp hqnp)]
  exact Nat.zero_testBit _

theorem CalculateSyndrome_eq_zero (cw n : Nat)
    (h : ∀ p ∈ parityPositions n, computeParityBit cw n p = false) :
    CalculateSyndrome cw n = 0 := by
  unfold CalculateSyndrome
  have key : ∀ (P : List Nat), (∀ p ∈ P, computeParityBit cw n p = false) →
      P.foldl (fun s p => if computeParityBit cw n p then s ||| p else s) 0 = 0 := by
    intro P
    induction P with
    | nil => intro _; rfl
    | cons p rest ih =>
        intro hall
        simp only [List.foldl_cons, hall p (by simp), Bool.false_eq_true, if_false]
        exact ih (fun x hx => hall x (by simp [hx]))
  exact key _ h

theorem EncodeBlock_syndrome_zero (k r d : Nat) :
    CalculateSyndrome (EncodeBlock k r d) (k + r) = 0 := by
  rw [EncodeBlock_eq_fold]
  apply CalculateSyndrome_eq_zero
  by_cases hn : 1 ≤ k + r
  · apply parityFold_all_clear
    · exact fun p hp => ((mem_parityPositions hn).mp hp).1
    · intro p hp
      obtain ⟨⟨j, rfl⟩, hle⟩ := (mem_parityPositions hn).mp hp
      exact ⟨Nat.two_pow_pos j, hle⟩
    · exact parityPositions_nodup _
    · exact fun p hp => placeLoop_parity_clear (k + r) d p hp
  · intro p hp
    have : k + r = 0 := by omega
    rw [this] at hp
    simp [parityPositions] at hp

theorem EncodeBlock_testBit_high (k r d j : Nat) (hj : k + r ≤ j) :
    (EncodeBlock k r d).testBit j = false := by
  rw [EncodeBlock_eq_fold]
  rw [parityFold_testBit_preserved _ _ _ _
    (fun p hp => by
      rcases (List.mem_filter.mp hp) with ⟨_, hle⟩
      simp only [decide_eq_true_eq] at hle
      have hp1 : 1 ≤ p := by
        rcases List.mem_filter.mp hp with ⟨hmem, _⟩
        rcases List.mem_map.mp hmem with ⟨i, _, rfl⟩
        exact Nat.two_pow_pos i
      omega)]
  rw [placeLoop_testBit_preserved _ _ _ _ _
    (fun q hq => by
      obtain ⟨hq1, hq2, _⟩ := mem_nonParityPositions.mp hq
      omega)]
  exact Nat.zero_testBit _

theorem EncodeBlock_lt (k r d : Nat) : EncodeBlock k r d < 2 ^ (k + r) := by
  have hmod : EncodeBlock k r d % 2 ^ (k + r) = EncodeBlock k r d := by
    apply Nat.eq_of_testBit_eq
    intro i
    rw [Nat.testBit_mod_two_pow]
    by_cases h : i < k + r
    · simp [h]
    · rw [decide_eq_false h]
      simp only [Bool.false_and]
      exact (EncodeBlock_testBit_high k r d i (by omega)).symm
  rw [← hmod]
  exact Nat.mod_lt _ (Nat.two_pow_pos _)

theorem EncodeBlock_nonParity_testBit (k r d : Nat) (i : Nat)
    (hi : i < (nonParityPositions (k + r)).length) :
    (EncodeBlock k r d).testBit ((nonParityPositions (k + r))[i] - 1) = d.testBit i := by
  rw [EncodeBlock_eq_fold]
  rw [parityFold_testBit_preserved _ _ _ _
    (fun p hp hcon => by
      have hn : 1 ≤ k + r := by
        rcases List.mem_filter.mp hp with ⟨hmem, _⟩
        rcases List.mem_map.mp hmem with ⟨j, hj, _⟩
        simp only [List.mem_range] at hj
        omega
      obtain ⟨⟨j, rfl⟩, _⟩ := (mem_parityPositions hn).mp hp
      have hq : (nonParityPositions (k + r))[i] ∈ nonParityPositions (k + r) :=
        List.getElem_mem hi
      obtain ⟨hq1, _, hqnp⟩ := mem_nonParityPositions.mp hq
      have h2 := Nat.two_pow_pos j
      have : (nonParityPositions (k + r))[i] = 2 ^ j := by omega
      rw [this, isParityPosition_two_pow] at hqnp
      exact Bool.true_eq_false.mp hqnp)]
  have := placeLoop_testBit_get d (nonParityPositions (k + r)) 0 0
    (fun p hp => (mem_nonParityPositions.mp hp).1)
    (nonParityPositions_sub_one_nodup (k + r)) i hi (Nat.zero_testBit _)
  simpa using this

theorem ExtractDataBits_testBit (cw n j : Nat) :
    (ExtractDataBits cw n).testBit j =
      if h : j < (nonParityPositions n).length then
        cw.testBit ((nonParityPositions n)[j] - 1)
      else false := by
  unfold ExtractDataBits
  rw [extractLoop_testBit cw _ 0 0 j (by omega) (Nat.zero_testBit _)]
  simp

theorem ExtractDataBits_EncodeBlock (k r d : Nat) :
    ExtractDataBits (EncodeBlock k r d) (k + r) =
      d % 2 ^ (nonParityPositions (k + r)).length := by
  apply Nat.eq_of_testBit_eq
  intro j
  rw [ExtractDataBits_testBit, Nat.testBit_mod_two_pow]
  by_cases h : j < (nonParityPositions (k + r)).length
  · rw [dif_pos h, EncodeBlock_nonParity_testBit k r d j h]
    simp [h]
  · rw [dif_neg h, decide_eq_false h]
    simp

/-! ### Lemmas: DecodeBlock on clean and singly corrupted codewords -/

theorem or_eq_zero_parts (a b : Nat) (h : a ||| b = 0) : a = 0 ∧ b = 0 := by
  constructor <;> apply Nat.eq_of_testBit_eq <;> intro i <;>
    have := congrArg (fun x => Nat.testBit x i) h <;>
    simp only [Nat.testBit_or, Nat.zero_testBit, Bool.or_eq_false_iff] at this <;>
    simp [this.1, this.2]

theorem or_pos_of_pos_right (a b : Nat) (hb : 1 ≤ b) : 1 ≤ a ||| b := by
  by_contra hcon
  have hz : a ||| b = 0 := by omega
  have := (or_eq_zero_parts a b hz).2
  omega

theorem or_pos_of_pos_left (a b : Nat) (ha : 1 ≤ a) : 1 ≤ a ||| b := by
  by_contra hcon
  have hz : a ||| b = 0 := by omega
  have := (or_eq_zero_parts a b hz).1
  omega

theorem DecodeBlock_EncodeBlock (k r d : Nat) :
    DecodeBlock k r (EncodeBlock k r d) =
      (d % 2 ^ (nonParityPositions (k + r)).length, false) := by
  unfold DecodeBlock
  simp [EncodeBlock_syndrome_zero k r d, ExtractDataBits_EncodeBlock]

theorem computeParityBit_xor_flip (cw n p i : Nat) (hp : p ∈ parityPositions n)
    (hi : i < n) :
    computeParityBit (cw ^^^ 2 ^ i) n p =
      xor (computeParityBit cw n p) ((i + 1) &&& p != 0) := by
  by_cases hcover : (i + 1) &&& p ≠ 0
  · rw [computeParityBit_flip cw (cw ^^^ 2 ^ i) n p (i + 1)
      (mem_coverPositions.mpr ⟨by omega, by omega, hcover⟩)
      (fun q hq hne => by
        obtain ⟨hq1, _, _⟩ := mem_coverPositions.mp hq
        rw [Nat.testBit_xor, Nat.testBit_two_pow_of_ne (by omega)]
        cases cw.testBit (q - 1) <;> rfl)
      (by
        rw [Nat.testBit_xor]
        simp only [Nat.add_sub_cancel, Nat.testBit_two_pow_self]
        cases cw.testBit i <;> rfl)]
    have : ((i + 1) &&& p != 0) = true := by simpa using hcover
    rw [this]
    cases computeParityBit cw n p <;> rfl
  · rw [computeParityBit_congr cw (cw ^^^ 2 ^ i) n p
      (fun q hq => by
        obtain ⟨hq1, _, hqp⟩ := mem_coverPositions.mp hq
        have hne : q ≠ i + 1 := by
          intro hcon
          rw [hcon] at hqp
          exact hqp (by simpa using hcover)
        rw [Nat.testBit_xor, Nat.testBit_two_pow_of_ne (by omega)]
        cases cw.testBit (q - 1) <;> rfl)]
    have : ((i + 1) &&& p != 0) = false := by simpa using hcover
    rw [this]
    cases computeParityBit cw n p <;> rfl

theorem syndromeFold_or_eq (cw n : Nat) (x : Nat) (hn : 1 ≤ n)
    (h : ∀ p ∈ parityPositions n, computeParityBit cw n p = (x &&& p != 0))
    (hx1 : 1 ≤ x) (hxn : x ≤ n) :
    CalculateSyndrome cw n = x := by
  unfold CalculateSyndrome
  -- characterise the bits of the accumulating OR
  have key : ∀ (P : List Nat) (acc : Nat),
      (∀ p ∈ P, computeParityBit cw n p = (x &&& p != 0)) →
      ∀ j, (P.foldl (fun s p => if computeParityBit cw n p then s ||| p else s) acc).testBit j
        = (acc.testBit j || P.any (fun p => (x &&& p != 0) && p.testBit j)) := by
    intro P
    induction P with
    | nil => intro acc _ j; simp
    | cons p rest ih =>
        intro acc hall j
        simp only [List.foldl_cons, List.any_cons]
        rw [ih _ (fun q hq => hall q (by simp [hq]))]
        rw [hall p (by simp)]
        rcases hcase : (x &&& p != 0) with _ | _
        · simp
        · simp only [Bool.false_eq_true, if_true, Nat.testBit_or, Bool.true_and]
          cases acc.testBit j <;> cases p.testBit j <;> simp
  apply Nat.eq_of_testBit_eq
  intro j
  rw [key _ 0 h j]
  rw [Nat.zero_testBit, Bool.false_or]
  rcases hbit : x.testBit j with _ | _
  · -- bit j of x clear: no parity position contributes bit j
    rw [List.any_eq_false]
    intro p hp
    obtain ⟨⟨jp, rfl⟩, hple⟩ := (mem_parityPositions hn).mp hp
    by_cases hjj : jp = j
    · subst hjj
      have hz : x &&& 2 ^ jp = 0 := by
        by_contra hnz
        have hset := (land_two_pow_ne_zero_iff x jp).mp hnz
        rw [hbit] at hset
        exact absurd hset (by simp)
      simp [hz]
    · rw [Nat.testBit_two_pow_of_ne hjj]
      simp
  · -- bit j of x set: parity position 2^j exists and contributes
    rw [List.any_eq_true]
    refine ⟨2 ^ j, ?_, ?_⟩
    · rw [mem_parityPositions hn]
      have := testBit_true_ge x j hbit
      exact ⟨⟨j, rfl⟩, by omega⟩
    · rw [Nat.testBit_two_pow_self, Bool.and_true]
      simpa using (land_two_pow_ne_zero_iff x j).mpr hbit

theorem CalculateSyndrome_flip (k r d i : Nat) (hi : i < k + r) :
    CalculateSyndrome (EncodeBlock k r d ^^^ 2 ^ i) (k + r) = i + 1 := by
  have hn : 1 ≤ k + r := by omega
  apply syndromeFold_or_eq _ _ _ hn _ (by omega) (by omega)
  intro p hp
  rw [computeParityBit_xor_flip _ _ _ i hp hi]
  have hzero : computeParityBit (EncodeBlock k r d) (k + r) p = false := by
    by_contra hcon
    have h1 := CalculateSyndrome_eq_zero (EncodeBlock k r d) (k + r)
    have h2 := EncodeBlock_syndrome_zero k r d
    -- a nonzero parity bit would force a nonzero syndrome: derive directly
    unfold CalculateSyndrome at h2
    have key : ∀ (P : List Nat) (acc : Nat), p ∈ P →
        computeParityBit (EncodeBlock k r d) (k + r) p = true → 1 ≤ p →
        (∀ q ∈ P, 1 ≤ q) →
        1 ≤ P.foldl (fun s q =>
          if computeParityBit (EncodeBlock k r d) (k + r) q then s ||| q else s) acc := by
      intro P
      induction P with
      | nil => intro acc hmem; simp at hmem
      | cons q rest ih =>
          intro acc hmem hpar hp1 hall
          rcases List.mem_cons.mp hmem with heq | hmem2
          · subst heq
            simp only [List.foldl_cons, hpar, if_true]
            have hor : 1 ≤ acc ||| p := or_pos_of_pos_right acc p hp1
            -- the fold only ORs further bits in, so the value stays positive
            have mono : ∀ (Q : List Nat) (a : Nat), 1 ≤ a →
                1 ≤ Q.foldl (fun s q2 =>
                  if computeParityBit (EncodeBlock k r d) (k + r) q2 then s ||| q2 else s) a := by
              intro Q
              induction Q with
              | nil => intro a ha; exact ha
              | cons q2 rest2 ih2 =>
                  intro a ha
                  simp only [List.foldl_cons]
                  apply ih2
                  split
                  · exact or_pos_of_pos_left a q2 ha
                  · exact ha
            exact mono rest _ hor
          · simp only [List.foldl_cons]
            exact ih _ hmem2 hpar hp1 (fun q2 hq2 => hall q2 (by simp [hq2]))
    have hp1 : 1 ≤ p := by
      obtain ⟨⟨jp, rfl⟩, _⟩ := (mem_parityPositions hn).mp hp
      exact Nat.two_pow_pos jp
    have := key (parityPositions (k + r)) 0 hp (by simpa using hcon) hp1
      (fun q hq => by
        obtain ⟨⟨jq, rfl⟩, _⟩ := (mem_parityPositions hn).mp hq
        exact Nat.two_pow_pos jq)
    omega
  rw [hzero, Bool.false_xor]

theorem DecodeBlock_flip (k r d i : Nat) (hi : i < k + r) :
    DecodeBlock k r (EncodeBlock k r d ^^^ 2 ^ i) =
      (d % 2 ^ (nonParityPositions (k + r)).length, false) := by
  have h1 : ¬(i + 1 = 0) := by omega
  have h2 : i + 1 ≤ k + r := by omega
  unfold DecodeBlock
  simp [CalculateSyndrome_flip k r d i hi, h1, h2, Nat.add_sub_cancel,
    Nat.xor_cancel_right, EncodeBlock_syndrome_zero k r d, ExtractDataBits_EncodeBlock]

/-! ### Counting data slots: parameter validity -/

theorem nonParityPositions_length_ge (k r : Nat) (hk1 : 1 ≤ k) (hk16 : k ≤ 16)
    (hr1 : 1 ≤ r) (hr8 : r ≤ 8) (hvalid : k + r + 1 ≤ 2 ^ r) :
    k ≤ (nonParityPositions (k + r)).length := by
  interval_cases k <;> interval_cases r <;> revert hvalid <;> decide

/-! ### The stream round trip -/

theorem decodeCodewords_encode (k r : Nat) (hk : 1 ≤ k)
    (hslots : k ≤ (nonParityPositions (k + r)).length)
    (original_bits : Nat) :
    ∀ (bits : List Bool) (written : Nat), written + bits.length = original_bits →
      decodeCodewords k r original_bits
        ((toBlocks k bits).map (fun blk => EncodeBlock k r (bitsToNat blk))) written =
      some bits := by
  have main : ∀ (c : Nat) (bits : List Bool) (written : Nat), bits.length ≤ c →
      written + bits.length = original_bits →
      decodeCodewords k r original_bits
        ((toBlocks k bits).map (fun blk => EncodeBlock k r (bitsToNat blk))) written =
      some bits := by
    intro c
    induction c with
    | zero =>
        intro bits written hc hw
        have : bits = [] := List.eq_nil_of_length_eq_zero (by omega)
        subst this
        simp [toBlocks_nil, decodeCodewords]
    | succ c ih =>
        intro bits written hc hw
        rcases eq_or_ne bits [] with rfl | hne
        · simp [toBlocks_nil, decodeCodewords]
        · have hlen : 0 < bits.length := List.length_pos.mpr hne
          rw [toBlocks_pos k bits (by omega) hne, List.map_cons]
          have hdecode : DecodeBlock k r (EncodeBlock k r (bitsToNat (bits.take k))) =
              (bitsToNat (bits.take k), false) := by
            rw [DecodeBlock_EncodeBlock]
            congr 1
            apply Nat.mod_eq_of_lt
            calc bitsToNat (bits.take k) < 2 ^ (bits.take k).length := bitsToNat_lt _
              _ ≤ 2 ^ (nonParityPositions (k + r)).length := by
                  apply Nat.pow_le_pow_right (by omega)
                  simp only [List.length_take]
                  omega
          rw [decodeCodewords, hdecode]
          rcases le_or_lt k bits.length with hk_le | hk_gt
          · -- full data block
            have hnotrim : ¬ (written + k > original_bits) := by omega
            simp only [hnotrim, if_false]
            have htake_len : (bits.take k).length = k := by
              simp [List.length_take]; omega
            have hbits := natToBits_bitsToNat (bits.take k) k (le_of_eq htake_len)
            simp only [htake_len, Nat.sub_self, List.replicate_zero, List.append_nil] at hbits
            rw [ih (bits.drop k) (written + k)
              (by simp [List.length_drop]; omega)
              (by simp [List.length_drop]; omega)]
            rw [hbits]
            show some (List.take k bits ++ List.drop k bits) = some bits
            rw [List.take_append_drop]
          · -- final, shorter block
            have htrim : written + k > original_bits := by omega
            simp only [htrim, if_true]
            have htake : bits.take k = bits := List.take_all_of_le (by omega)
            have hdrop : bits.drop k = [] := List.drop_eq_nil_of_le (by omega)
            have hout : original_bits - written = bits.length := by omega
            rw [htake, hdrop, toBlocks_nil, List.map_nil, hout,
              natToBits_bitsToNat_self]
            simp [decodeCodewords]
  intro bits written hw
  exact main bits.length bits written le_rfl hw

theorem EncodeStream_bits_length (k r : Nat) (hk : 1 ≤ k) (input : List Nat) :
    (((toBlocks k (bytesToBits input)).map
        (fun blk => natToBits (k + r) (EncodeBlock k r (bitsToNat blk)))).flatten).length =
      ((input.length * 8 + k - 1) / k) * (k + r) := by
  rw [flatten_map_length _ _ (k + r) (fun b _ => natToBits_length _ _)]
  rw [toBlocks_length k (by omega), bytesToBits_length]
  ring_nf

theorem EncodeStream_length (k r : Nat) (hk : 1 ≤ k) (input : List Nat) :
    (EncodeStream k r input).length = CalculateEncodedSize k r input.length := by
  unfold EncodeStream CalculateEncodedSize bitsToBytes
  rw [List.length_map, toBlocks_length 8 (by omega), EncodeStream_bits_length k r hk]
  show ((input.length * 8 + k - 1) / k * (k + r) + 8 - 1) / 8 =
    ((input.length * 8 + k - 1) / k * (k + r) + 7) / 8
  congr 1

theorem EncodeStream_DecodeStream (k r : Nat) (hk : 1 ≤ k)
    (hslots : k ≤ (nonParityPositions (k + r)).length)
    (input : List Nat) (hbytes : ∀ b ∈ input, b < 256) :
    DecodeStream k r (EncodeStream k r input) input.length = some input := by
  rcases eq_or_ne input [] with rfl | hne
  · simp [DecodeStream]
  · have hlen : 0 < input.length := List.length_pos.mpr hne
    unfold DecodeStream
    have hbits_ne : input.length * 8 ≠ 0 := by
      intro hcon
      omega
    rw [if_neg hbits_ne]
    set n := k + r with hn
    set original_bits := input.length * 8 with hob
    set codeword_count := (original_bits + k - 1) / k with hcc
    set total_code_bits := codeword_count * n with htcb
    set E := ((toBlocks k (bytesToBits input)).map
        (fun blk => natToBits n (EncodeBlock k r (bitsToNat blk)))).flatten with hE
    have hElen : E.length = total_code_bits := by
      rw [hE, EncodeStream_bits_length k r hk input, htcb, hcc, hob]
    obtain ⟨m, hm⟩ := bytesToBits_bitsToBytes E
    have hstream : bytesToBits (EncodeStream k r input) = E ++ List.replicate m false := by
      rw [← hm]
      rfl
    have hstream_len : (bytesToBits (EncodeStream k r input)).length =
        total_code_bits + m := by
      rw [hstream]
      simp [hElen]
    rw [if_neg (by omega)]
    have htake : (bytesToBits (EncodeStream k r input)).take total_code_bits = E := by
      rw [hstream, ← hElen, List.take_left]
    rw [htake]
    have hblocks : toBlocks n E = (toBlocks k (bytesToBits input)).map
        (fun blk => natToBits n (EncodeBlock k r (bitsToNat blk))) := by
      rw [hE]
      apply toBlocks_flatten n (by omega)
      intro b hb
      rcases List.mem_map.mp hb with ⟨x, _, rfl⟩
      exact natToBits_length _ _
    rw [hblocks, List.map_map]
    have hmap : ((toBlocks k (bytesToBits input)).map
        (bitsToNat ∘ fun blk => natToBits n (EncodeBlock k r (bitsToNat blk)))) =
        (toBlocks k (bytesToBits input)).map
          (fun blk => EncodeBlock k r (bitsToNat blk)) := by
      apply List.map_congr_left
      intro blk _
      simp only [Function.comp_apply]
      exact bitsToNat_natToBits n _ (EncodeBlock_lt k r _)
    rw [hmap]
    rw [decodeCodewords_encode k r hk hslots original_bits (bytesToBits input) 0
      (by rw [bytesToBits_length, hob]; ring)]
    show some (bitsToBytes (bytesToBits input)) = some input
    rw [bitsToBytes_bytesToBits input hbytes]

/-! ### Lemmas: filesystem model -/

theorem fsLookup_fsRemove_self (fs : FS) (p : String) :
    fsLookup (fsRemove fs p) p = none := by
  induction fs with
  | nil => rfl
  | cons e rest ih =>
      unfold fsRemove fsLookup at *
      rcases heq : (e.1 == p) with _ | _
      · simp only [List.filter_cons, heq, Bool.not_false, if_true, List.find?_cons, heq]
        exact ih
      · simp only [List.filter_cons, heq, Bool.not_true, if_false]
        exact ih

theorem Create_failure_removes (fs : FS) (archive_path : String) (k r : Nat)
    (header_ok : Bool) (input_files : List String) :
    (Create fs archive_path k r header_ok input_files).1 = false →
      (Create fs archive_path k r header_ok input_files).2 = fs ∨
        fsLookup (Create fs archive_path k r header_ok input_files).2 archive_path = none := by
  simp only [Create]
  split
  · intro _
    left
    rfl
  · split
    · intro _
      right
      exact fsLookup_fsRemove_self _ _
    · split
      · intro _
        right
        exact fsLookup_fsRemove_self _ _
      · split
        · intro _
          right
          exact fsLookup_fsRemove_self _ _
        · intro hfail
          simp at hfail

theorem Delete_invalid_unchanged (fs : FS) (archive_path : String) (header_ok : Bool)
    (files_to_delete : List String) (bytes : List Nat) (old_entries : List FileEntry)
    (consumed : Nat)
    (hfs : fsLookup fs archive_path = some (FsNode.file bytes))
    (hparse : ReadArchiveHeader bytes = some (old_entries, consumed))
    (hcond : (∃ name ∈ files_to_delete, ∀ entry ∈ old_entries, entry.name ≠ name) ∨
      (old_entries.filter
        (fun entry => !(files_to_delete.any (fun name => entry.name == name)))).length =
        old_entries.length) :
    Delete fs archive_path header_ok files_to_delete = (false, fs) := by
  simp only [Delete, hfs, hparse]
  rcases hall : files_to_delete.all (fun name => old_entries.any (fun entry => entry.name == name))
    with _ | _
  · simp [hall]
  · have hpresent : ∀ name ∈ files_to_delete, ∃ entry ∈ old_entries, entry.name = name := by
      intro name hname
      have := (List.all_eq_true.mp hall) name hname
      rcases List.any_eq_true.mp this with ⟨entry, hentry, heq⟩
      exact ⟨entry, hentry, by simpa using heq⟩
    have hkeep : (old_entries.filter
        (fun entry => !(files_to_delete.any (fun name => entry.name == name)))).length =
        old_entries.length := by
      rcases hcond with ⟨name, hname, habsent⟩ | hlen
      · rcases hpresent name hname with ⟨entry, hentry, heq⟩
        exact absurd heq (habsent entry hentry)
      · exact hlen
    simp [hall, hkeep]

theorem FindEntriesByNames_missing (all_entries : List FileEntry)
    (requested : List String) (name : String) (hmem : name ∈ requested)
    (habsent : ∀ entry ∈ all_entries, entry.name ≠ name) :
    FindEntriesByNames all_entries requested = none := by
  induction requested with
  | nil => simp at hmem
  | cons first rest ih =>
      unfold FindEntriesByNames
      rcases List.mem_cons.mp hmem with heq | hrest
      · subst heq
        have hempty : (all_entries.filter (fun entry => entry.name == name)).isEmpty = true := by
          rw [List.isEmpty_iff]
          rw [List.filter_eq_nil_iff]
          intro entry hentry
          simpa using habsent entry hentry
        simp [hempty]
      · rcases hempty : (all_entries.filter (fun entry => entry.name == first)).isEmpty
          with _ | _
        · simp [hempty, ih hrest]
        · simp [hempty]

theorem Extract_missing_unchanged (fs : FS) (archive_path : String) (k r : Nat)
    (requested_files : List String) (bytes : List Nat) (entries : List FileEntry)
    (consumed : Nat) (name : String)
    (hfs : fsLookup fs archive_path = some (FsNode.file bytes))
    (hparse : ReadArchiveHeader bytes = some (entries, consumed))
    (hmem : name ∈ requested_files)
    (habsent : ∀ entry ∈ entries, entry.name ≠ name) :
    Extract fs archive_path k r requested_files = (false, fs) := by
  simp only [Extract, hfs, hparse]
  have hne : requested_files.isEmpty = false := by
    cases requested_files with
    | nil => simp at hmem
    | cons a l => rfl
  rw [hne]
  simp only [Bool.false_eq_true, if_false]
  rw [FindEntriesByNames_missing entries requested_files name hmem habsent]

/-! ### Lemmas: decimal suffixes and the Concatenate rename loop -/

/-- Decimal value of a digit list (inverse view of `decChars`). -/
def evalDec (l : List Char) : Nat :=
  l.foldl (fun acc c => 10 * acc + (c.toNat - 48)) 0

theorem evalDec_append_digit (l : List Char) (c : Char) :
    evalDec (l ++ [c]) = 10 * evalDec l + (c.toNat - 48) := by
  unfold evalDec
  rw [List.foldl_append]
  rfl

theorem toNat_ofNat_digit (d : Nat) (hd : d < 10) :
    (Char.ofNat (48 + d)).toNat = 48 + d := by
  interval_cases d <;> decide

theorem evalDec_decCharsAux : ∀ (fuel n : Nat), n ≤ fuel → evalDec (decCharsAux fuel n) = n := by
  intro fuel
  induction fuel with
  | zero =>
      intro n hn
      have : n = 0 := by omega
      subst this
      decide
  | succ fuel ih =>
      intro n hn
      unfold decCharsAux
      by_cases h : n < 10
      · simp only [h, if_true]
        unfold evalDec
        simp only [List.foldl_cons, List.foldl_nil]
        rw [toNat_ofNat_digit n h]
        omega
      · simp only [h, if_false]
        rw [evalDec_append_digit, ih (n / 10) (by omega),
          toNat_ofNat_digit (n % 10) (by omega)]
        omega

theorem evalDec_decChars (n : Nat) : evalDec (decChars n) = n :=
  evalDec_decCharsAux n n le_rfl

theorem decChars_injective : Function.Injective decChars := by
  intro a b h
  have ha := evalDec_decChars a
  have hb := evalDec_decChars b
  rw [← ha, ← hb, h]

theorem natToString_injective : Function.Injective natToString := by
  intro a b h
  apply decChars_injective
  unfold natToString at h
  exact congrArg String.data h

theorem string_append_data (s t : String) : (s ++ t).data = s.data ++ t.data := by
  cases s
  cases t
  rfl

/-- The candidate name `base(suffix)` built by the rename loop. -/
def suffixName (base : String) (suffix : Nat) : String :=
  base ++ "(" ++ natToString suffix ++ ")"

theorem suffixName_injective (base : String) : Function.Injective (suffixName base) := by
  intro a b h
  unfold suffixName at h
  have hdata := congrArg String.data h
  simp only [string_append_data, List.append_assoc] at hdata
  have h2 := List.append_cancel_left hdata
  have h3 := List.append_cancel_left h2
  have hlen : (natToString a).data.length = (natToString b).data.length := by
    have hl := congrArg List.length h3
    simp only [List.length_append] at hl
    omega
  have h4 := (List.append_inj h3 hlen).1
  exact natToString_injective (String.ext h4)

theorem FindFreeName_spec (used_names : List String) (base : String) :
    ∀ (fuel start : Nat),
      (∃ t, start ≤ t ∧ t < start + fuel ∧ suffixName base t ∉ used_names) →
      ∃ t, start ≤ t ∧ FindFreeName used_names base fuel start = suffixName base t ∧
        suffixName base t ∉ used_names ∧
        ∀ u, start ≤ u → u < t → suffixName base u ∈ used_names := by
  intro fuel
  induction fuel with
  | zero =>
      intro start hex
      obtain ⟨t, ht1, ht2, _⟩ := hex
      omega
  | succ fuel ih =>
      intro start hex
      unfold FindFreeName
      by_cases hmem : (base ++ "(" ++ natToString start ++ ")") ∈ used_names
      · simp only [hmem, if_true]
        have hex2 : ∃ t, start + 1 ≤ t ∧ t < (start + 1) + fuel ∧
            suffixName base t ∉ used_names := by
          obtain ⟨t, ht1, ht2, ht3⟩ := hex
          refine ⟨t, ?_, by omega, ht3⟩
          rcases eq_or_lt_of_le ht1 with rfl | hlt
          · exact absurd hmem ht3
          · omega
        obtain ⟨t, ht1, ht2, ht3, ht4⟩ := ih (start + 1) hex2
        refine ⟨t, by omega, ht2, ht3, ?_⟩
        intro u hu1 hu2
        rcases eq_or_lt_of_le hu1 with rfl | hlt
        · exact hmem
        · exact ht4 u (by omega) hu2
      · simp only [hmem, if_false]
        exact ⟨start, le_rfl, rfl, hmem, fun u hu1 hu2 => by omega⟩

theorem free_suffix_exists (used_names : List String) (base : String) :
    ∃ t, 2 ≤ t ∧ t < 2 + (used_names.length + 1) ∧ suffixName base t ∉ used_names := by
  by_contra hcon
  push_neg at hcon
  have hsub : (List.range' 2 (used_names.length + 1)).map (suffixName base) ⊆ used_names := by
    intro s hs
    rcases List.mem_map.mp hs with ⟨t, ht, rfl⟩
    rcases List.mem_range'_1.mp ht with ⟨ht1, ht2⟩
    exact hcon t ht1 (by omega)
  have hnd : ((List.range' 2 (used_names.length + 1)).map (suffixName base)).Nodup :=
    (List.nodup_range' 2 (used_names.length + 1)).map (suffixName_injective base)
  have hle := (hnd.subperm hsub).length_le
  simp at hle

theorem RenameEntryName_fresh (used_names : List String) (name : String)
    (h : name ∉ used_names) : RenameEntryName used_names name = name := by
  unfold RenameEntryName
  rw [if_neg h]

theorem RenameEntryName_used (used_names : List String) (name : String)
    (h : name ∈ used_names) :
    ∃ t, 2 ≤ t ∧ RenameEntryName used_names name = suffixName name t ∧
      suffixName name t ∉ used_names ∧
      ∀ u, 2 ≤ u → u < t → suffixName name u ∈ used_names := by
  unfold RenameEntryName
  rw [if_pos h]
  obtain ⟨t, ht1, ht2, ht3⟩ := free_suffix_exists used_names name
  obtain ⟨t2, h1, h2, h3, h4⟩ := FindFreeName_spec used_names name (used_names.length + 1) 2
    ⟨t, ht1, by omega, ht3⟩
  exact ⟨t2, h1, h2, h3, h4⟩

theorem placeLoop_congr (ps : List Nat) (idx cw d d2 : Nat)
    (h : ∀ i, i < ps.length → d.testBit (idx + i) = d2.testBit (idx + i)) :
    placeLoop d ps idx cw = placeLoop d2 ps idx cw := by
  induction ps generalizing idx cw with
  | nil => rfl
  | cons p rest ih =>
      unfold placeLoop
      have h0 : d.testBit idx = d2.testBit idx := by
        have := h 0 (by simp)
        simpa using this
      rw [h0]
      exact ih (idx + 1) _ (fun i hi => by
        have := h (i + 1) (by simp; omega)
        rw [show idx + (i + 1) = idx + 1 + i by omega] at this
        exact this)

theorem EncodeBlock_ignores_high_bits (k r d : Nat) :
    EncodeBlock k r d = EncodeBlock k r (d % 2 ^ (nonParityPositions (k + r)).length) := by
  unfold EncodeBlock
  rw [placeLoop_congr (nonParityPositions (k + r)) 0 0 d
    (d % 2 ^ (nonParityPositions (k + r)).length)
    (fun i hi => by
      rw [Nat.testBit_mod_two_pow, decide_eq_true (show 0 + i < (nonParityPositions (k + r)).length by omega)]
      simp)]

theorem CollectNewEntries_encoded_size (fs : FS) (k r : Nat) :
    ∀ (inputs : List String) (entries : List FileEntry),
      CollectNewEntries fs k r inputs = some entries →
      ∀ entry ∈ entries, entry.encoded_size = CalculateEncodedSize k r entry.original_size := by
  intro inputs
  induction inputs with
  | nil =>
      intro entries h entry hentry
      unfold CollectNewEntries at h
      cases h
      simp at hentry
  | cons p rest ih =>
      intro entries h entry hentry
      unfold CollectNewEntries at h
      rcases hlook : fsLookup fs p with _ | node
      · rw [hlook] at h
        cases h
      · rcases node with content | _
        · rw [hlook] at h
          rcases hrest : CollectNewEntries fs k r rest with _ | tail
          · rw [hrest] at h
            cases h
          · rw [hrest] at h
            simp only [Option.map_some] at h
            cases h
            rcases List.mem_cons.mp hentry with rfl | htail
            · rfl
            · exact ih tail hrest entry htail
        · rw [hlook] at h
          cases h

set_option maxRecDepth 1000000

/-! ## The claims -/

/-- C1, corrected.  The round trip `decode(encode(B), |B|) = B` does not hold
for every `(k, r)` with `1 ≤ k ≤ 16`, `1 ≤ r ≤ 8`: when `2^r < k + r + 1`
the codeword does not have `k` non-parity positions and `EncodeBlock`
silently drops the high data bits, so the decoder returns wrong bytes (see
`C1_counterexample`).  Amended with that documented side condition
(`k + r + 1 ≤ 2^r`), the round trip holds for every byte sequence. -/
theorem C1_encode_decode_roundtrip (k r : Nat) (B : List Nat)
    (hk1 : 1 ≤ k) (hk16 : k ≤ 16) (hr1 : 1 ≤ r) (hr8 : r ≤ 8)
    (hvalid : k + r + 1 ≤ 2 ^ r) (hbytes : ∀ b ∈ B, b < 256) :
    DecodeStream k r (EncodeStream k r B) B.length = some B :=
  EncodeStream_DecodeStream k r hk1
    (nonParityPositions_length_ge k r hk1 hk16 hr1 hr8 hvalid) B hbytes

/-- C1 witness: the round trip at `k = 8, r = 4` on the bytes `[42, 255]`. -/
theorem C1_roundtrip_witness :
    (1 ≤ 8 ∧ 8 ≤ 16 ∧ 1 ≤ 4 ∧ 4 ≤ 8 ∧ 8 + 4 + 1 ≤ 2 ^ 4 ∧
      (∀ b ∈ ([42, 255] : List Nat), b < 256)) ∧
    DecodeStream 8 4 (EncodeStream 8 4 [42, 255]) ([42, 255] : List Nat).length =
      some [42, 255] :=
  ⟨by decide,
    C1_encode_decode_roundtrip 8 4 [42, 255] (by decide) (by decide) (by decide)
      (by decide) (by decide) (by decide)⟩

/-- C1 counterexample: `k = 16, r = 1` lies inside the claimed parameter
range, but `2^1 < 16 + 1 + 1`; the 17-bit codeword has only 12 data slots,
so byte sequence `[0, 16]` (data bit 12 set) decodes to `[0, 0]`. -/
theorem C1_counterexample :
    1 ≤ 16 ∧ 16 ≤ 16 ∧ 1 ≤ 1 ∧ 1 ≤ 8 ∧
    DecodeStream 16 1 (EncodeStream 16 1 [0, 16]) 2 = some [0, 0] ∧
    DecodeStream 16 1 (EncodeStream 16 1 [0, 16]) 2 ≠ some [0, 16] := by
  decide

/-- C2, corrected.  Single-bit correction `decode_block(c ^ (1 << i)) = (d,
false)` fails on the claimed full parameter box (see `C2_counterexample`:
for `k = 16, r = 1` the corrupted codeword is corrected, but the recovered
data value has lost the high data bits).  Amended with the same validity
condition `k + r + 1 ≤ 2^r` as C1, every single flipped bit in a codeword
is silently corrected and no error is signalled. -/
theorem C2_single_bit_correction (k r d i : Nat)
    (hk1 : 1 ≤ k) (hk16 : k ≤ 16) (hr1 : 1 ≤ r) (hr8 : r ≤ 8)
    (hvalid : k + r + 1 ≤ 2 ^ r) (hd : d < 2 ^ k) (hi : i < k + r) :
    DecodeBlock k r (EncodeBlock k r d ^^^ 2 ^ i) = (d, false) := by
  rw [DecodeBlock_flip k r d i hi]
  have hslots := nonParityPositions_length_ge k r hk1 hk16 hr1 hr8 hvalid
  congr 1
  apply Nat.mod_eq_of_lt
  calc d < 2 ^ k := hd
    _ ≤ 2 ^ (nonParityPositions (k + r)).length :=
        Nat.pow_le_pow_right (by omega) hslots

/-- C2 witness: flipping bit 5 of the codeword for `d = 171` at
`k = 8, r = 4` decodes back to `(171, false)`. -/
theorem C2_correction_witness :
    (1 ≤ 8 ∧ 8 ≤ 16 ∧ 1 ≤ 4 ∧ 4 ≤ 8 ∧ 8 + 4 + 1 ≤ 2 ^ 4 ∧ 171 < 2 ^ 8 ∧ 5 < 8 + 4) ∧
    DecodeBlock 8 4 (EncodeBlock 8 4 171 ^^^ 2 ^ 5) = (171, false) :=
  ⟨by decide,
    C2_single_bit_correction 8 4 171 5 (by decide) (by decide) (by decide) (by decide)
      (by decide) (by decide) (by decide)⟩

/-- C2 counterexample: at `k = 16, r = 1` (inside the claimed range) and
`d = 4096 < 2^16`, flipping bit 0 of the codeword decodes to `(0, false)`,
not `(4096, false)`: the error flag stays clear but the data is wrong. -/
theorem C2_counterexample :
    1 ≤ 16 ∧ 16 ≤ 16 ∧ 1 ≤ 1 ∧ 1 ≤ 8 ∧ 4096 < 2 ^ 16 ∧ 0 < 16 + 1 ∧
    DecodeBlock 16 1 (EncodeBlock 16 1 4096 ^^^ 2 ^ 0) = (0, false) ∧
    DecodeBlock 16 1 (EncodeBlock 16 1 4096 ^^^ 2 ^ 0) ≠ (4096, false) := by
  decide

/-- C3, confirmed.  The byte length of the encoded stream equals
`ceil(ceil(|B|*8 / k) * (k+r) / 8)` (with natural ceiling division written
as `(a + b - 1) / b`), this is exactly `CalculateEncodedSize`, and every
entry that `CollectNewEntries` prepares for the archive header records that
same value as its `encoded_size`. -/
theorem C3_encoded_size_formula (k r : Nat) (hk : 1 ≤ k) (B : List Nat) :
    (EncodeStream k r B).length = CalculateEncodedSize k r B.length ∧
    CalculateEncodedSize k r B.length = ((B.length * 8 + k - 1) / k * (k + r) + 7) / 8 ∧
    (∀ (fs : FS) (inputs : List String) (entries : List FileEntry),
      CollectNewEntries fs k r inputs = some entries →
      ∀ entry ∈ entries, entry.encoded_size = CalculateEncodedSize k r entry.original_size) :=
  ⟨EncodeStream_length k r hk B, rfl,
    fun fs inputs entries h => CollectNewEntries_encoded_size fs k r inputs entries h⟩

/-- C3 witness: the size formula at `k = 8, r = 4` on three bytes. -/
theorem C3_size_witness :
    1 ≤ 8 ∧
    (EncodeStream 8 4 [1, 2, 3]).length = CalculateEncodedSize 8 4 ([1, 2, 3] : List Nat).length :=
  ⟨by decide, (C3_encoded_size_formula 8 4 (by decide) [1, 2, 3]).1⟩

/-- C4, corrected.  `Create` opens the archive with `std::ios::trunc` before
it validates the inputs, and removes the file on every later failure, so a
previously existing archive is NOT preserved: after a failed `Create` the
old archive is gone (`C4_counterexample` destroys a 3-byte archive by
creating over it with a missing input).  The amended property: whenever
`Create` fails, either nothing was touched (the archive path was a
directory, so the open itself failed) or the file at the archive path has
been removed. -/
theorem C4_create_failure_destroys_archive (fs : FS) (archive_path : String) (k r : Nat)
    (header_ok : Bool) (input_files : List String)
    (hfail : (Create fs archive_path k r header_ok input_files).1 = false) :
    (Create fs archive_path k r header_ok input_files).2 = fs ∨
      fsLookup (Create fs archive_path k r header_ok input_files).2 archive_path = none :=
  Create_failure_removes fs archive_path k r header_ok input_files hfail

/-- C4 witness: `Create` over an existing archive with a missing input fails
and leaves no file at the archive path. -/
theorem C4_destroy_witness :
    (Create [("a.haf", FsNode.file [1, 2, 3])] "a.haf" 8 4 true ["missing.txt"]).1 = false ∧
    ((Create [("a.haf", FsNode.file [1, 2, 3])] "a.haf" 8 4 true ["missing.txt"]).2 =
        [("a.haf", FsNode.file [1, 2, 3])] ∨
      fsLookup (Create [("a.haf", FsNode.file [1, 2, 3])] "a.haf" 8 4 true
        ["missing.txt"]).2 "a.haf" = none) :=
  ⟨by decide,
    C4_create_failure_destroys_archive [("a.haf", FsNode.file [1, 2, 3])] "a.haf" 8 4 true
      ["missing.txt"] (by decide)⟩

/-- C4 counterexample: the claim as stated is false.  With an existing
3-byte archive at `a.haf` and a nonexistent input file, `Create` fails and
the prior archive is not left as it was: it has been truncated and removed. -/
theorem C4_counterexample :
    (Create [("a.haf", FsNode.file [1, 2, 3])] "a.haf" 8 4 true ["missing.txt"]).1 = false ∧
    (Create [("a.haf", FsNode.file [1, 2, 3])] "a.haf" 8 4 true ["missing.txt"]).2 ≠
      [("a.haf", FsNode.file [1, 2, 3])] ∧
    fsLookup (Create [("a.haf", FsNode.file [1, 2, 3])] "a.haf" 8 4 true
      ["missing.txt"]).2 "a.haf" = none := by
  decide

/-- C5, confirmed.  `Delete` validates the deletion list against the parsed
header before creating the temp file: if some requested name is absent, or
if the kept-entry list is as long as the original entry list, it fails and
returns with the filesystem — in particular the archive file — exactly as
it was. -/
theorem C5_delete_invalid_unchanged (fs : FS) (archive_path : String) (header_ok : Bool)
    (files_to_delete : List String) (bytes : List Nat) (old_entries : List FileEntry)
    (consumed : Nat)
    (hfs : fsLookup fs archive_path = some (FsNode.file bytes))
    (hparse : ReadArchiveHeader bytes = some (old_entries, consumed))
    (hcond : (∃ name ∈ files_to_delete, ∀ entry ∈ old_entries, entry.name ≠ name) ∨
      (old_entries.filter
        (fun entry => !(files_to_delete.any (fun name => entry.name == name)))).length =
        old_entries.length) :
    Delete fs archive_path header_ok files_to_delete = (false, fs) :=
  Delete_invalid_unchanged fs archive_path header_ok files_to_delete bytes old_entries
    consumed hfs hparse hcond

/-- C5 witness: deleting the absent name `nope` from a one-entry archive
fails and leaves the filesystem untouched. -/
theorem C5_delete_witness :
    (fsLookup [("a.haf", FsNode.file (WriteArchiveHeader [⟨"dup.bin", "", 1, 2, 40⟩] ++ [170, 187]))]
        "a.haf" =
      some (FsNode.file (WriteArchiveHeader [⟨"dup.bin", "", 1, 2, 40⟩] ++ [170, 187]))) ∧
    (ReadArchiveHeader (WriteArchiveHeader [⟨"dup.bin", "", 1, 2, 40⟩] ++ [170, 187]) =
      some ([⟨"dup.bin", "", 1, 2, 40⟩], 40)) ∧
    Delete [("a.haf", FsNode.file (WriteArchiveHeader [⟨"dup.bin", "", 1, 2, 40⟩] ++ [170, 187]))]
        "a.haf" true ["nope"] =
      (false, [("a.haf", FsNode.file (WriteArchiveHeader [⟨"dup.bin", "", 1, 2, 40⟩] ++ [170, 187]))]) :=
  ⟨by decide, by decide,
    C5_delete_invalid_unchanged
      [("a.haf", FsNode.file (WriteArchiveHeader [⟨"dup.bin", "", 1, 2, 40⟩] ++ [170, 187]))]
      "a.haf" true ["nope"] (WriteArchiveHeader [⟨"dup.bin", "", 1, 2, 40⟩] ++ [170, 187])
      [⟨"dup.bin", "", 1, 2, 40⟩] 40 (by decide) (by decide)
      (Or.inl ⟨"nope", by decide, by decide⟩)⟩

/-- C6: the code contradicts the claim.  In `Append`, the branch for a
failed `WriteArchiveHeader` on the temp file (step 4 of spec steps 3 - 6)
returns `false` WITHOUT deleting `<archive>.tmp`; the sibling failure
branches (payload copy, encoding) and the corresponding branch of `Delete`
all call `fs::remove(temp_path)` first.  With the header write failing
(`header_ok = false`), `Append` on a well-formed empty archive leaves
`a.haf.tmp` behind. -/
theorem C6_append_header_failure_leaves_temp :
    (Append [("a.haf", FsNode.file [72, 65, 70, 0, 0, 0, 0])] "a.haf" 8 4 false []).1 = false ∧
    fsLookup (Append [("a.haf", FsNode.file [72, 65, 70, 0, 0, 0, 0])] "a.haf" 8 4 false []).2
      "a.haf.tmp" = some (FsNode.file []) := by
  decide

/-- C7, confirmed.  If any requested name is absent from the parsed header,
`Extract` fails with the filesystem exactly as it was: no output file has
been created or written. -/
theorem C7_extract_missing_fails_early (fs : FS) (archive_path : String) (k r : Nat)
    (requested_files : List String) (bytes : List Nat) (entries : List FileEntry)
    (consumed : Nat) (name : String)
    (hfs : fsLookup fs archive_path = some (FsNode.file bytes))
    (hparse : ReadArchiveHeader bytes = some (entries, consumed))
    (hmem : name ∈ requested_files)
    (habsent : ∀ entry ∈ entries, entry.name ≠ name) :
    Extract fs archive_path k r requested_files = (false, fs) :=
  Extract_missing_unchanged fs archive_path k r requested_files bytes entries consumed
    name hfs hparse hmem habsent

/-- C7 witness: requesting the present `dup.bin` together with the absent
`ghost` fails and writes nothing. -/
theorem C7_extract_witness :
    (fsLookup [("a.haf", FsNode.file (WriteArchiveHeader [⟨"dup.bin", "", 1, 2, 40⟩] ++ [170, 187]))]
        "a.haf" =
      some (FsNode.file (WriteArchiveHeader [⟨"dup.bin", "", 1, 2, 40⟩] ++ [170, 187]))) ∧
    ("ghost" ∈ ["dup.bin", "ghost"]) ∧
    Extract [("a.haf", FsNode.file (WriteArchiveHeader [⟨"dup.bin", "", 1, 2, 40⟩] ++ [170, 187]))]
        "a.haf" 8 4 ["dup.bin", "ghost"] =
      (false, [("a.haf", FsNode.file (WriteArchiveHeader [⟨"dup.bin", "", 1, 2, 40⟩] ++ [170, 187]))]) :=
  ⟨by decide, by decide,
    C7_extract_missing_fails_early
      [("a.haf", FsNode.file (WriteArchiveHeader [⟨"dup.bin", "", 1, 2, 40⟩] ++ [170, 187]))]
      "a.haf" 8 4 ["dup.bin", "ghost"] (WriteArchiveHeader [⟨"dup.bin", "", 1, 2, 40⟩] ++ [170, 187])
      [⟨"dup.bin", "", 1, 2, 40⟩] 40 "ghost" (by decide) (by decide) (by decide) (by decide)⟩

/-- C8, confirmed.  In `Concatenate` the entries are collected source by
source in input order; a fresh name is kept as is; a name already in
`used_names` is renamed to `name(t)` for the smallest free suffix `t ≥ 2`
(every smaller suffix is already taken); and concretely, merging two
archives that each contain `dup.bin` yields the entry names
`dup.bin, dup.bin(2)` in the written target archive. -/
theorem C8_concatenate_rename :
    (∀ (used_names : List String) (name : String), name ∉ used_names →
      RenameEntryName used_names name = name) ∧
    (∀ (used_names : List String) (name : String), name ∈ used_names →
      ∃ t, 2 ≤ t ∧ RenameEntryName used_names name = name ++ "(" ++ natToString t ++ ")" ∧
        RenameEntryName used_names name ∉ used_names ∧
        ∀ u, 2 ≤ u → u < t → (name ++ "(" ++ natToString u ++ ")") ∈ used_names) ∧
    ((match fsLookup (Concatenate
        [("s1.haf", FsNode.file (WriteArchiveHeader [⟨"dup.bin", "", 1, 2, 40⟩] ++ [170, 187])),
         ("s2.haf", FsNode.file (WriteArchiveHeader [⟨"dup.bin", "", 1, 2, 40⟩] ++ [204, 221]))]
        "out.haf" true ["s1.haf", "s2.haf"]).2 "out.haf" with
      | some (FsNode.file b) =>
          match ReadArchiveHeader b with
          | some parsed => some (parsed.1.map FileEntry.name)
          | none => none
      | _ => none) = some ["dup.bin", "dup.bin(2)"]) := by
  refine ⟨RenameEntryName_fresh, fun used_names name h => ?_, by decide⟩
  obtain ⟨t, h1, h2, h3, h4⟩ := RenameEntryName_used used_names name h
  exact ⟨t, h1, h2, h2 ▸ h3, h4⟩

/-- C8 witness: a fresh name is kept, and a clashing name gets `(2)`. -/
theorem C8_rename_witness :
    ("new.bin" ∉ (["dup.bin"] : List String)) ∧
    RenameEntryName ["dup.bin"] "new.bin" = "new.bin" :=
  ⟨by decide, C8_concatenate_rename.1 ["dup.bin"] "new.bin" (by decide)⟩

/-- C9, confirmed.  `DecodeStream` with `original_size = 0` returns success
immediately for every parameter pair and every encoded stream: the result
does not depend on the stream at all, and no byte is produced. -/
theorem C9_decode_zero_size (k r : Nat) (encoded : List Nat) :
    DecodeStream k r encoded 0 = some [] := by
  simp [DecodeStream]

/-- C10, confirmed.  `EncodeBlock` sets only bits at codeword positions
`1 .. k+r`, so the codeword is below `2^(k+r)`; and data bits of `d` at
indices at or beyond the number of non-power-of-two positions in
`1 .. k+r` are ignored (the codeword depends only on `d` modulo `2^slots`). -/
theorem C10_encode_block_range (k r d : Nat) :
    EncodeBlock k r d < 2 ^ (k + r) ∧
    EncodeBlock k r d = EncodeBlock k r (d % 2 ^ (nonParityPositions (k + r)).length) :=
  ⟨EncodeBlock_lt k r d, EncodeBlock_ignores_high_bits k r d⟩

end hamarc
